import Mathlib

set_option linter.unusedVariables false

/-!
Shallow embedding of the s3fs repository: the directory enumerator
(the `dir` struct with its map of pending directory entries), the
filesystem facade (`S3FS.Open` / `stat` from fs.go) and the seekable
file handle (file.go).  Machine integers (sizes, offsets, times) are
modelled as `Int`; byte streams as lists; the paginated S3 listing as
an explicit queue of pages (the stored continuation marker selects the
next page, so consuming the queue head is the marker protocol).
-/

/-- Filesystem entry metadata (the `fileInfo` struct): base name, size,
directory bit (`fs.ModeDir`) and modification time. -/
structure Ent where
  name : String
  size : Int
  isDir : Bool
  modTime : Int
deriving DecidableEq

/-- One object of a `ListObjects` page (`s3.Object`: key, size, last modified). -/
structure S3Obj where
  key : String
  size : Int
  modTime : Int
deriving DecidableEq

/-- One `ListObjects` response page: contents, common prefixes and the
optional truncation flag, as in the AWS SDK output struct. -/
structure ListPage where
  contents : List S3Obj
  commonPrefixes : List String
  isTruncated : Option Bool
deriving DecidableEq

/-- Go `path.Base`: empty string gives ".", trailing slashes are removed,
then everything up to the last slash is dropped; all slashes gives "/". -/
def pathBase (s : String) : String :=
  if s = "" then "." else
  let cs := s.data.reverse.dropWhile (fun c => c = '/')
  if cs = [] then "/" else
  ⟨(cs.takeWhile (fun c => c ≠ '/')).reverse⟩

/-- Go `strings.TrimRight(s, "/")`. -/
def trimRightSlash (s : String) : String :=
  ⟨(s.data.reverse.dropWhile (fun c => c = '/')).reverse⟩

/-- Go `strings.TrimSuffix(s, "/")`: drop one trailing slash if present. -/
def trimSuffixSlash (s : String) : String :=
  if s.data.getLast? = some '/' then ⟨s.data.dropLast⟩ else s

/-- Directory entry built from a common prefix in `readNext`:
base name, zero size, `fs.ModeDir`, zero time. -/
def dirEntOf (p : String) : Ent := ⟨pathBase p, 0, true, 0⟩

/-- File entry built from a listed object in `readNext`. -/
def fileEntOf (o : S3Obj) : Ent := ⟨pathBase o.key, o.size, false, o.modTime⟩

/-- Go's byte-wise lexicographic string comparison, as the code-point
order on the underlying character lists. -/
def strLe (a b : String) : Prop := a.data ≤ b.data

instance : DecidableRel strLe := fun a b => inferInstanceAs (Decidable (a.data ≤ b.data))

/-- Comparison used by the enumerator's `sort.Slice` call: order by `Name()`. -/
def entLe (a b : Ent) : Prop := strLe a.name b.name

instance : DecidableRel entLe := fun a b => inferInstanceAs (Decidable (strLe a.name b.name))

instance : IsTotal Ent entLe := ⟨fun a b => le_total a.name.data b.name.data⟩

instance : IsTrans Ent entLe := ⟨fun _ _ _ h1 h2 => le_trans h1 h2⟩

/-- The buffer sort (`sort.Slice(d.buf, …Name() < Name()…)`), modelled as a
deterministic sort by name. -/
def sortByName (l : List Ent) : List Ent := l.insertionSort entLe

/-- Go `sort.Search` binary-search loop over `[i, j)`, fuelled
(any fuel at least `j - i` gives the exact Go result). -/
def sSearch (f : Nat → Bool) : Nat → Nat → Nat → Nat
  | 0, i, _ => i
  | fuel + 1, i, j =>
    if i < j then
      let h := (i + j) / 2
      if f h then sSearch f fuel i h else sSearch f fuel (h + 1) j
    else i

/-- Go `sort.Search(n, f)`. -/
def sortSearch (n : Nat) (f : Nat → Bool) : Nat := sSearch f n 0 n

/-- Enumerator state (the `dir` struct).  `pages` is the remaining server
listing (client + marker); `buf` and `dirs` keep Go's nil / non-nil
distinction; `dirs` is the pending map as an insertion-ordered association
list from directory entry to its "already merged" flag. -/
structure DirS where
  name : String
  pages : List ListPage
  done : Bool
  buf : Option (List Ent)
  dirs : Option (List (Ent × Bool))
deriving DecidableEq

/-- Error kinds carried by a `fs.PathError` in the enumerator. -/
inductive EKind
  | notExist
  | invalid
deriving DecidableEq

/-- Errors returned by enumerator operations: `io.EOF`, a `fs.PathError`,
or the model's sentinel for a missing server page (never hit for a
well-formed pagination). -/
inductive RErr
  | eofR
  | pathErr (op : String) (path : String) (kind : EKind)
  | noPage
deriving DecidableEq

/-- Release gate of one pending directory entry inside `mergeDirFiles`:
`sort.Search` over the first `l` buffered entries for a name at or above
the directory's, releasing unless the search ran off the end while more
pages remain. -/
def relFlag (buf : List Ent) (l : Nat) (done : Bool) (de : Ent) : Bool :=
  let i := sortSearch l (fun j =>
    match buf.get? j with
    | some e => decide (strLe de.name e.name)
    | none => false)
  decide (i < l) || done

/-- The `dir.mergeDirFiles` method: ensure the buffer is non-nil, release
every not-yet-used pending directory whose gate passes (appending it and
marking it used), then sort the whole buffer by name. -/
def mergeDirFiles (done : Bool) (buf0 : Option (List Ent))
    (dirs : List (Ent × Bool)) : List Ent × List (Ent × Bool) :=
  let buf := buf0.getD []
  let l := buf.length
  let released := dirs.filterMap fun p =>
    if p.2 = false ∧ relFlag buf l done p.1 = true then some p.1 else none
  let dirs2 := dirs.map fun p => (p.1, p.2 || relFlag buf l done p.1)
  (sortByName (buf ++ released), dirs2)

/-- The listing prefix computed at the top of `readNext`: trim trailing
slashes, map the root "." to "", otherwise append "/". -/
def listName (dname : String) : String :=
  let nm := trimRightSlash dname
  if nm = "." then "" else nm ++ "/"

/-- The `dir.readNext` method (fetch and fold in one page): returns the
updated state and an optional error (`io.EOF` once the last page landed).
A non-root empty page fails with `fs.ErrNotExist` before any state change. -/
def DirS.readNext (d : DirS) : DirS × Option RErr :=
  if d.done then (d, some .eofR) else
  match d.pages with
  | [] => (d, some .noPage)
  | out :: rest =>
    if d.name ≠ "." ∧ out.commonPrefixes.length + out.contents.length = 0 then
      (d, some (.pathErr "readdir" (trimSuffixSlash (listName d.name)) .notExist))
    else
      let done := match out.isTruncated with
        | some b => !b
        | none => false
      let dirs1 := out.commonPrefixes.foldl (fun ds p =>
        let de := dirEntOf p
        if ds.any (fun q => q.1 = de) then ds else ds ++ [(de, false)]) (d.dirs.getD [])
      let buf1 : Option (List Ent) :=
        match d.buf, out.contents with
        | none, [] => none
        | b, cs => some (b.getD [] ++ cs.map fileEntOf)
      let m := mergeDirFiles done buf1 dirs1
      ({ d with pages := rest, done := done, buf := some m.1, dirs := some m.2 },
       if done then some .eofR else none)

/-- The `dir.readAll` loop, fuelled (any fuel above the page count is enough:
every errorless `readNext` consumes a page). -/
def readAllF : Nat → DirS → DirS × Option RErr
  | 0, d => (d, some .noPage)
  | fuel + 1, d =>
    if d.done then (d, some .eofR) else
    match d.readNext with
    | (d1, none) => readAllF fuel d1
    | (d1, some .eofR) => (d1, none)
    | (d1, some e) => (d1, some e)

/-- The `for len(d.buf) < n` page-fetch loop of `dir.ReadDir`, fuelled. -/
def fillBufF (n : Nat) : Nat → DirS → DirS × Option RErr
  | 0, d => (d, some .noPage)
  | fuel + 1, d =>
    if (d.buf.getD []).length < n then
      match d.readNext with
      | (d1, none) => fillBufF n fuel d1
      | (d1, some .eofR) => (d1, none)
      | (d1, some e) => (d1, some e)
    else (d, none)

/-- The `dir.ReadDir` method.  Result: returned entries (`none` is Go's nil
slice), returned error, and the state after the call.  For `n ≤ 0` it drains
all pages and hands the whole buffer out; for `n > 0` it fetches pages until
`n` entries are buffered or the listing is exhausted, hands out at most `n`,
and reports `io.EOF` together with the last entries once everything is gone. -/
def DirS.readDir (n : Int) (d : DirS) : Option (List Ent) × Option RErr × DirS :=
  if n ≤ 0 then
    match readAllF (d.pages.length + 1) d with
    | (d1, none) => (d1.buf, none, { d1 with buf := none })
    | (d1, some .eofR) => (some [], none, d1)
    | (d1, some e) => (none, some e, d1)
  else
    match fillBufF n.toNat (d.pages.length + 1) d with
    | (d1, some .eofR) => (none, some .eofR, d1)
    | (d1, some e) => (none, some e, d1)
    | (d1, none) =>
      match d1.buf with
      | none => (none, if d1.done then some .eofR else none, d1)
      | some buf =>
        let off := min n.toNat buf.length
        (some (buf.take off),
         if d1.done && (buf.drop off).isEmpty then some .eofR else none,
         { d1 with buf := some (buf.drop off) })

/-- A `fs.PathError` whose wrapped error is a plain message (`errors.New`). -/
structure PathErrMsg where
  op : String
  path : String
  msg : String
deriving DecidableEq

/-- The `dir.Read([]byte)` method: zero bytes read and a
`fs.PathError{Op: "read", Path: d.name, Err: errors.New("is a directory")}`;
the receiver is not touched, so the state comes back unchanged. -/
def DirS.readBytes (p : Nat) (d : DirS) : (Nat × PathErrMsg) × DirS :=
  ((0, ⟨"read", d.name, "is a directory"⟩), d)

/-- A freshly constructed directory handle over a server page queue
(what `stat` builds for the root or for a non-empty synthetic directory). -/
def initDir (name : String) (pages : List ListPage) : DirS :=
  ⟨name, pages, false, none, none⟩

/-- C10: calling the byte-stream `Read` on a directory handle (any state,
any buffer) reads zero bytes, fails with a `PathError` with op "read", the
directory's name as path and message "is a directory", and leaves the
enumerator state (cursor, buffers) unchanged. -/
theorem c10_dir_read_is_directory (p : Nat) (d : DirS) :
    DirS.readBytes p d = ((0, ⟨"read", d.name, "is a directory"⟩), d) := rfl

/-- C5: draining the root of an empty bucket (one empty, final page) with
unrestricted batch size returns an empty but non-nil slice and no error. -/
theorem c5_empty_root_drain (n : Int) (hn : n ≤ 0) :
    (DirS.readDir n (initDir "." [⟨[], [], some false⟩])).1 = some [] ∧
      (DirS.readDir n (initDir "." [⟨[], [], some false⟩])).2.1 = none := by
  have h : DirS.readDir n (initDir "." [⟨[], [], some false⟩]) =
      (some [], none,
        { initDir "." [⟨[], [], some false⟩] with
            pages := [], done := true, buf := none, dirs := some [] }) := by
    rw [DirS.readDir, if_pos hn]
    rfl
  rw [h]
  exact ⟨rfl, rfl⟩

/-- Witness for C5 at `n = -1`. -/
theorem c5_empty_root_drain_witness :
    (-1 : Int) ≤ 0 ∧
      ((DirS.readDir (-1) (initDir "." [⟨[], [], some false⟩])).1 = some [] ∧
        (DirS.readDir (-1) (initDir "." [⟨[], [], some false⟩])).2.1 = none) :=
  ⟨by decide, c5_empty_root_drain (-1) (by decide)⟩

theorem string_mk_data (s : String) : (⟨s.data⟩ : String) = s := rfl

theorem trimRightSlash_eq_self (s : String) (h : s.data.getLast? ≠ some '/') :
    trimRightSlash s = s := by
  rw [trimRightSlash]
  rcases hr : s.data.reverse with _ | ⟨c, t⟩
  · have hnil : s.data = [] := by
      have := congrArg List.reverse hr
      simpa using this
    simp only [List.dropWhile_nil, List.reverse_nil]
    rw [← string_mk_data s, hnil]
  · have hdata : s.data = t.reverse ++ [c] := by
      have h2 := congrArg List.reverse hr
      simp only [List.reverse_reverse] at h2
      rw [h2]
      simp
    have hc : c ≠ '/' := by
      intro hcc
      apply h
      rw [hdata, List.getLast?_concat, hcc]
    rw [List.dropWhile_cons, if_neg (by simp [hc]), ← hr]
    simp

theorem listName_clean (name : String) (h1 : name ≠ ".")
    (h2 : name.data.getLast? ≠ some '/') : listName name = name ++ "/" := by
  rw [listName, trimRightSlash_eq_self name h2, if_neg h1]

theorem trimSuffixSlash_append_slash (name : String) :
    trimSuffixSlash (name ++ "/") = name := by
  have hd : (name ++ "/").data = name.data ++ ['/'] := String.data_append name "/"
  rw [trimSuffixSlash, hd]
  rw [if_pos (by rw [List.getLast?_concat])]
  rw [List.dropLast_concat]

theorem readNext_name (d : DirS) : (DirS.readNext d).1.name = d.name := by
  rw [DirS.readNext]
  split
  · rfl
  · split
    · rfl
    · split
      · rfl
      · rfl

theorem readNext_root_err (d : DirS) (h : d.name = ".") (op p : String) (k : EKind) :
    (DirS.readNext d).2 ≠ some (.pathErr op p k) := by
  rw [DirS.readNext]
  split
  · simp
  · split
    · simp
    · rename_i out rest
      rw [if_neg (by simp [h])]
      split <;> simp

theorem readAllF_root_err (fuel : Nat) (d : DirS) (h : d.name = ".")
    (op p : String) (k : EKind) :
    (readAllF fuel d).2 ≠ some (.pathErr op p k) := by
  induction fuel generalizing d with
  | zero => simp [readAllF]
  | succ fuel ih =>
    rw [readAllF]
    split
    · simp
    · rcases hr : d.readNext with ⟨d1, e⟩
      have hname : d1.name = "." := by
        have := readNext_name d
        rw [hr] at this
        simpa [h] using this
      match e with
      | none => exact ih d1 hname
      | some .eofR => simp
      | some (.pathErr op' p' k') =>
        intro hc
        simp only [Option.some.injEq] at hc
        apply readNext_root_err d h op' p' k'
        rw [hr, hc]
      | some .noPage => simp

theorem fillBufF_root_err (n fuel : Nat) (d : DirS) (h : d.name = ".")
    (op p : String) (k : EKind) :
    (fillBufF n fuel d).2 ≠ some (.pathErr op p k) := by
  induction fuel generalizing d with
  | zero => simp [fillBufF]
  | succ fuel ih =>
    rw [fillBufF]
    split
    · rcases hr : d.readNext with ⟨d1, e⟩
      have hname : d1.name = "." := by
        have := readNext_name d
        rw [hr] at this
        simpa [h] using this
      match e with
      | none => exact ih d1 hname
      | some .eofR => simp
      | some (.pathErr op' p' k') =>
        intro hc
        simp only [Option.some.injEq] at hc
        apply readNext_root_err d h op' p' k'
        rw [hr, hc]
      | some .noPage => simp
    · simp

/-- C4: enumerating a non-root directory whose listing returns neither
objects nor common prefixes on the first page fails with a `fs.ErrNotExist`
`PathError` carrying the requested path (for every batch size), while the
root directory's enumeration never fails with a `PathError` at all, however
empty the bucket is. -/
theorem c4_missing_dir_notexist :
    (∀ (n : Int) (name : String) (pg : ListPage) (rest : List ListPage),
      name ≠ "." → name.data.getLast? ≠ some '/' →
      pg.contents = [] → pg.commonPrefixes = [] →
      DirS.readDir n (initDir name (pg :: rest)) =
        (none, some (.pathErr "readdir" name .notExist), initDir name (pg :: rest))) ∧
    (∀ (n : Int) (pages : List ListPage) (op p : String) (k : EKind),
      (DirS.readDir n (initDir "." pages)).2.1 ≠ some (.pathErr op p k)) := by
  constructor
  · intro n name pg rest h1 h2 hc hp
    have hread : (initDir name (pg :: rest)).readNext =
        (initDir name (pg :: rest), some (.pathErr "readdir" name .notExist)) := by
      rw [DirS.readNext]
      rw [if_neg (by simp [initDir])]
      simp only [initDir]
      rw [if_pos (by simp [hc, hp, h1])]
      rw [listName_clean name h1 h2, trimSuffixSlash_append_slash]
    rw [DirS.readDir]
    by_cases hn : n ≤ 0
    · rw [if_pos hn]
      have : readAllF ((initDir name (pg :: rest)).pages.length + 1)
          (initDir name (pg :: rest)) =
          (initDir name (pg :: rest), some (.pathErr "readdir" name .notExist)) := by
        rw [readAllF]
        rw [if_neg (by simp [initDir])]
        rw [hread]
      rw [this]
    · rw [if_neg hn]
      have hn1 : 0 < n.toNat := by omega
      have : fillBufF n.toNat ((initDir name (pg :: rest)).pages.length + 1)
          (initDir name (pg :: rest)) =
          (initDir name (pg :: rest), some (.pathErr "readdir" name .notExist)) := by
        rw [fillBufF]
        rw [if_pos (by simp [initDir]; omega)]
        rw [hread]
      rw [this]
  · intro n pages op p k
    rw [DirS.readDir]
    by_cases hn : n ≤ 0
    · rw [if_pos hn]
      rcases hr : readAllF ((initDir "." pages).pages.length + 1) (initDir "." pages)
        with ⟨d1, e⟩
      have herr := readAllF_root_err ((initDir "." pages).pages.length + 1)
        (initDir "." pages) rfl op p k
      rw [hr] at herr
      simp only at herr
      rcases e with _ | e
      · simp
      · rcases e with _ | ⟨op', p', k'⟩ | _
        · simp
        · simpa using herr
        · simp
    · rw [if_neg hn]
      rcases hr : fillBufF n.toNat ((initDir "." pages).pages.length + 1) (initDir "." pages)
        with ⟨d1, e⟩
      have herr := fillBufF_root_err n.toNat ((initDir "." pages).pages.length + 1)
        (initDir "." pages) rfl op p k
      rw [hr] at herr
      simp only at herr
      rcases e with _ | e
      · rcases hb : d1.buf with _ | buf
        · simp only [hb]
          split <;> simp
        · simp only [hb]
          split <;> simp
      · rcases e with _ | ⟨op', p', k'⟩ | _
        · simp
        · simpa using herr
        · simp

/-- Witness for C4 at a concrete missing path "x" and at the root. -/
theorem c4_missing_dir_notexist_witness :
    (("x" : String) ≠ "." ∧ ("x" : String).data.getLast? ≠ some '/' ∧
      DirS.readDir 1 (initDir "x" [⟨[], [], some false⟩]) =
        (none, some (.pathErr "readdir" "x" .notExist),
          initDir "x" [⟨[], [], some false⟩])) ∧
      (DirS.readDir 1 (initDir "." [⟨[], [], some false⟩])).2.1 ≠
        some (.pathErr "readdir" "x" .notExist) :=
  ⟨⟨by decide, by decide,
    c4_missing_dir_notexist.1 1 "x" ⟨[], [], some false⟩ [] (by decide) (by decide) rfl rfl⟩,
   c4_missing_dir_notexist.2 1 [⟨[], [], some false⟩] "readdir" "x" .notExist⟩

theorem sSearch_spec (f : Nat → Bool) (n : Nat)
    (hmono : ∀ a b, a ≤ b → b < n → f a = true → f b = true) :
    ∀ fuel i j, j ≤ n → i ≤ j → j - i ≤ fuel →
      i ≤ sSearch f fuel i j ∧ sSearch f fuel i j ≤ j ∧
      (∀ k, i ≤ k → k < sSearch f fuel i j → f k = false) ∧
      (sSearch f fuel i j < j → f (sSearch f fuel i j) = true) := by
  intro fuel
  induction fuel with
  | zero =>
    intro i j hj hij hfuel
    have hji : i = j := by omega
    rw [sSearch]
    exact ⟨le_refl i, le_of_eq hji, fun k hk1 hk2 => absurd hk2 (by omega),
      fun h => absurd h (by omega)⟩
  | succ fuel ih =>
    intro i j hj hij hfuel
    rw [sSearch]
    by_cases hlt : i < j
    · rw [if_pos hlt]
      simp only
      by_cases hf : f ((i + j) / 2) = true
      · rw [if_pos hf]
        obtain ⟨h1, h2, h3, h4⟩ := ih i ((i + j) / 2) (by omega) (by omega) (by omega)
        refine ⟨h1, by omega, h3, ?_⟩
        intro hr
        by_cases hrh : sSearch f fuel i ((i + j) / 2) < (i + j) / 2
        · exact h4 hrh
        · have heq : sSearch f fuel i ((i + j) / 2) = (i + j) / 2 := by omega
          rw [heq]
          exact hf
      · rw [if_neg hf]
        obtain ⟨h1, h2, h3, h4⟩ := ih ((i + j) / 2 + 1) j hj (by omega) (by omega)
        refine ⟨by omega, h2, ?_, h4⟩
        intro k hk1 hk2
        by_cases hkh : (i + j) / 2 + 1 ≤ k
        · exact h3 k hkh hk2
        · have hk : k ≤ (i + j) / 2 := by omega
          by_contra hfk
          exact hf (hmono k ((i + j) / 2) hk (by omega) (by simpa using hfk))
    · rw [if_neg hlt]
      exact ⟨le_refl i, hij, fun k hk1 hk2 => absurd hk2 (by omega),
        fun h => absurd h (by omega)⟩

theorem sortSearch_lt_iff (f : Nat → Bool) (l : Nat)
    (hmono : ∀ a b, a ≤ b → b < l → f a = true → f b = true) :
    (sortSearch l f < l ↔ ∃ k, k < l ∧ f k = true) := by
  obtain ⟨h1, h2, h3, h4⟩ :=
    sSearch_spec f l hmono l 0 l le_rfl (Nat.zero_le l) (by omega)
  rw [sortSearch]
  constructor
  · intro hlt
    exact ⟨sSearch f l 0 l, hlt, h4 hlt⟩
  · rintro ⟨k, hk, hfk⟩
    by_contra hge
    have heq : sSearch f l 0 l = l := by omega
    have := h3 k (Nat.zero_le k) (by omega)
    rw [hfk] at this
    simp at this

theorem relFlag_iff (buf : List Ent) (done : Bool) (hs : List.Sorted entLe buf) (de : Ent) :
    relFlag buf buf.length done de =
      (done || decide (∃ e ∈ buf, strLe de.name e.name)) := by
  rw [relFlag]
  have hmono : ∀ a b, a ≤ b → b < buf.length →
      ((match buf.get? a with
        | some e => decide (strLe de.name e.name)
        | none => false) = true) →
      ((match buf.get? b with
        | some e => decide (strLe de.name e.name)
        | none => false) = true) := by
    intro a b hab hb hfa
    have ha : a < buf.length := by omega
    rw [List.get?_eq_get ha] at hfa
    rw [List.get?_eq_get hb]
    simp only [decide_eq_true_eq] at hfa ⊢
    rcases eq_or_lt_of_le hab with rfl | hlt
    · exact hfa
    · have hrel : entLe (buf.get ⟨a, ha⟩) (buf.get ⟨b, hb⟩) :=
        List.Sorted.rel_get_of_lt hs (by simpa using hlt)
      simp only [strLe, entLe] at hfa hrel ⊢
      exact le_trans hfa hrel
  have hiff := sortSearch_lt_iff _ buf.length hmono
  cases done with
  | false =>
    simp only [Bool.or_false, Bool.false_or]
    rw [decide_eq_decide]
    rw [hiff]
    constructor
    · rintro ⟨k, hk, hfk⟩
      rw [List.get?_eq_get hk] at hfk
      simp only [decide_eq_true_eq] at hfk
      exact ⟨buf.get ⟨k, hk⟩, List.get_mem buf k hk, hfk⟩
    · rintro ⟨e, he, hle⟩
      obtain ⟨idx, hidx⟩ := List.mem_iff_get.mp he
      refine ⟨idx, idx.isLt, ?_⟩
      rw [List.get?_eq_get idx.isLt, hidx]
      simpa using hle
  | true => simp

/-- C3 (amended): with a sorted buffer, `mergeDirFiles` releases a pending
directory entry exactly when it is not yet used and either all pages have
been fetched or its name is at or below the name of some buffered entry
(object or previously released directory — in particular a name tie does
release), and the resulting buffer is always sorted by name. -/
theorem c3_merge_release (done : Bool) (buf : List Ent) (dirs : List (Ent × Bool))
    (hs : List.Sorted entLe buf) :
    (mergeDirFiles done (some buf) dirs).2 =
        dirs.map (fun p =>
          (p.1, p.2 || (done || decide (∃ e ∈ buf, strLe p.1.name e.name)))) ∧
      (mergeDirFiles done (some buf) dirs).1 =
        sortByName (buf ++ dirs.filterMap (fun p =>
          if p.2 = false ∧ (done || decide (∃ e ∈ buf, strLe p.1.name e.name)) = true
          then some p.1 else none)) ∧
      List.Sorted entLe (mergeDirFiles done (some buf) dirs).1 := by
  refine ⟨?_, ?_, ?_⟩
  · simp only [mergeDirFiles, Option.getD_some]
    exact List.map_congr_left fun p hp => by rw [relFlag_iff buf done hs]
  · simp only [mergeDirFiles, Option.getD_some]
    have heq : List.filterMap (fun p =>
          if p.2 = false ∧ relFlag buf buf.length done p.1 = true
          then some p.1 else none) dirs =
        List.filterMap (fun p =>
          if p.2 = false ∧ (done || decide (∃ e ∈ buf, strLe p.1.name e.name)) = true
          then some p.1 else none) dirs :=
      List.filterMap_congr fun p hp => by rw [relFlag_iff buf done hs]
    rw [heq]
  · simp only [mergeDirFiles, Option.getD_some]
    exact List.sorted_insertionSort entLe _

/-- C3 counterexample: with more pages to come (`done = false`), a pending
directory named "b" is released and marked used although its name does not
fall strictly before the maximum buffered object name "b" (a tie): the
claimed necessary condition for a release fails on the code. -/
theorem c3_release_tie_cex :
    (mergeDirFiles false (some [⟨"b", 5, false, 7⟩]) [(⟨"b", 0, true, 0⟩, false)]).2 =
        [(⟨"b", 0, true, 0⟩, true)] ∧
      (mergeDirFiles false (some [⟨"b", 5, false, 7⟩]) [(⟨"b", 0, true, 0⟩, false)]).1 =
        [⟨"b", 5, false, 7⟩, ⟨"b", 0, true, 0⟩] ∧
      ¬ ((⟨"b", 0, true, 0⟩ : Ent).name.data < (⟨"b", 5, false, 7⟩ : Ent).name.data) ∧
      (false : Bool) = false := by
  refine ⟨by decide, by decide, by decide, rfl⟩

/-- Concrete sorted buffer used by the C3 witness. -/
def c3bufW : List Ent := [⟨"a", 1, false, 0⟩, ⟨"c", 2, false, 0⟩]

/-- Concrete pending-directory list used by the C3 witness. -/
def c3dirsW : List (Ent × Bool) := [(⟨"b", 0, true, 0⟩, false), (⟨"d", 0, true, 0⟩, false)]

/-- Witness for the amended C3 on a concrete sorted buffer and two pending
directories, one releasable ("b" ≤ "c") and one not ("d" above everything). -/
theorem c3_merge_release_witness :
    List.Sorted entLe c3bufW ∧
      ((mergeDirFiles false (some c3bufW) c3dirsW).2 =
        c3dirsW.map (fun p =>
          (p.1, p.2 || (false || decide (∃ e ∈ c3bufW, strLe p.1.name e.name)))) ∧
      (mergeDirFiles false (some c3bufW) c3dirsW).1 =
        sortByName (c3bufW ++ c3dirsW.filterMap (fun p =>
          if p.2 = false ∧ (false || decide (∃ e ∈ c3bufW, strLe p.1.name e.name)) = true
          then some p.1 else none)) ∧
      List.Sorted entLe (mergeDirFiles false (some c3bufW) c3dirsW).1) :=
  ⟨by decide, c3_merge_release false c3bufW c3dirsW (by decide)⟩

/-- AWS client error: a coded `awserr` (code and HTTP status), or an opaque
non-AWS error. -/
inductive GErr
  | aws (code : String) (status : Nat)
  | generic (tag : Nat)
deriving DecidableEq

/-- The `isNotFoundErr` helper in fs.go: an `awserr` whose code is
`NoSuchKey` or `NotFound`. -/
def isNotFoundErr : GErr → Bool
  | .aws code _ => code = "NoSuchKey" || code = "NotFound"
  | .generic _ => false

/-- A file handle's byte stream: the always-exhausted `eofReader`, or a
stream with the remaining bytes. -/
inductive StreamM
  | eofR
  | bytes (bs : List Nat)
deriving DecidableEq

/-- `GetObject` output fields relevant to the code. -/
structure GetOut where
  body : StreamM
  contentLength : Option Int
  lastModified : Option Int
  eTag : Option String
deriving DecidableEq

/-- `HeadObject` output fields relevant to the code. -/
structure HeadOut where
  contentLength : Option Int
  lastModified : Option Int
deriving DecidableEq

/-- `ListObjectsV2` output fields relevant to `stat` (called with MaxKeys 1). -/
structure ListV2Out where
  contents : List S3Obj
  commonPrefixes : List String
deriving DecidableEq

/-- Abstract S3 client surface used by the facade and the file handle:
plain `GetObject`, ranged conditional `GetObject` (Range + IfMatch, as in
`file.Seek`), `HeadObject`, and `ListObjectsV2` with MaxKeys 1 (as in `stat`). -/
structure S3ClientM where
  getObject : String → Except GErr GetOut
  getObjectRange : String → Int → String → Except GErr GetOut
  headObject : String → Except GErr HeadOut
  listObjectsV2 : String → Except GErr ListV2Out

/-- The `derefInt64` helper. -/
def derefInt64 (n : Option Int) : Int := n.getD 0

/-- The `derefTime` helper (times as integers; zero value is 0). -/
def derefTime (t : Option Int) : Int := t.getD 0

/-- The element-checking loop of Go `fs.ValidPath`, fuelled
(fuel above the character count suffices). -/
def pathSegsOkF : Nat → List Char → Bool
  | 0, _ => false
  | fuel + 1, cs =>
    let elem := cs.takeWhile (fun c => c ≠ '/')
    let rest := cs.dropWhile (fun c => c ≠ '/')
    if elem = [] ∨ elem = ['.'] ∨ elem = ['.', '.'] then false
    else
      match rest with
      | [] => true
      | _ :: rest2 => pathSegsOkF fuel rest2

/-- Go `fs.ValidPath`: "." is valid, otherwise every slash-separated element
must be nonempty and distinct from "." and "..". -/
def validPath (name : String) : Bool :=
  name = "." || pathSegsOkF (name.data.length + 1) name.data

/-- Result of the `stat` helper: plain file metadata, or a directory handle
(a fresh enumerator which also answers metadata with ModeDir). -/
inductive StatRes
  | fileInfo (fi : Ent)
  | dirHandle (name : String)
deriving DecidableEq

/-- Errors out of `stat` / `openDir`: `fs.ErrInvalid`, `fs.ErrNotExist`,
the package's `errNotDir`, or a passed-through client error. -/
inductive StatErr
  | invalid
  | notExist
  | notDir
  | aws (e : GErr)
deriving DecidableEq

/-- The `stat` helper in fs.go: validate, root is a directory, try
`HeadObject` first, fall back to a one-key `ListObjectsV2` probe of
`name + "/"`; nothing found is `fs.ErrNotExist`. -/
def statGo (cl : S3ClientM) (name : String) : Except StatErr StatRes :=
  if ¬ validPath name = true then .error .invalid
  else if name = "." then .ok (.dirHandle ".")
  else
    match cl.headObject name with
    | .ok head => .ok (.fileInfo ⟨name, derefInt64 head.contentLength, false,
        derefTime head.lastModified⟩)
    | .error e =>
      if ¬ isNotFoundErr e = true then .error (.aws e)
      else
        match cl.listObjectsV2 (name ++ "/") with
        | .error e2 => .error (.aws e2)
        | .ok out =>
          if out.commonPrefixes.length > 0 ∨ out.contents.length > 0
          then .ok (.dirHandle name)
          else .error .notExist

/-- The `openDir` helper: `stat`, then require the result to be a
directory handle (`errNotDir` otherwise). -/
def openDirGo (cl : S3ClientM) (name : String) : Except StatErr String :=
  match statGo cl name with
  | .ok (.dirHandle nm) => .ok nm
  | .ok (.fileInfo _) => .error .notDir
  | .error e => .error e

/-- Result of `S3FS.Open`: a file handle (body stream plus the cached
`fileInfo` when `GetObject` returned full metadata) or a directory handle. -/
inductive OpenRes
  | fileHandle (body : StreamM) (cachedInfo : Option Ent)
  | dirHandle (name : String)
deriving DecidableEq

/-- Error kinds wrapped in `S3FS.Open`'s `fs.PathError`. -/
inductive OKind
  | invalid
  | notExist
  | wrapped (e : GErr)
deriving DecidableEq

/-- Errors out of `S3FS.Open`: a `fs.PathError`, or a raw error returned
unwrapped (non-not-found failures of the directory fallback). -/
inductive OpenErr
  | pathErr (op : String) (path : String) (kind : OKind)
  | raw (e : StatErr)
deriving DecidableEq

/-- Does a `stat` error satisfy fs.go's `isNotFoundErr` test? -/
def statErrIsNotFound : StatErr → Bool
  | .aws g => isNotFoundErr g
  | _ => false

/-- The `S3FS.Open` method: validate; root opens a directory; otherwise
fetch the object, and on a not-found error fall back to the synthetic
directory probe; when neither resolves, fail with
`fs.PathError{Op: "open", Path: name, Err: fs.ErrNotExist}`. -/
def openGo (cl : S3ClientM) (name : String) : Except OpenErr OpenRes :=
  if ¬ validPath name = true then .error (.pathErr "open" name .invalid)
  else if name = "." then
    match openDirGo cl name with
    | .ok d => .ok (.dirHandle d)
    | .error e => .error (.raw e)
  else
    match cl.getObject name with
    | .ok out =>
      .ok (.fileHandle out.body
        (match out.contentLength, out.lastModified with
         | some len, some lm => some ⟨pathBase name, len, false, lm⟩
         | _, _ => none))
    | .error err =>
      if isNotFoundErr err = true then
        match openDirGo cl name with
        | .ok d => .ok (.dirHandle d)
        | .error e2 =>
          if statErrIsNotFound e2 = false ∧ e2 ≠ .notDir ∧ e2 ≠ .notExist
          then .error (.raw e2)
          else .error (.pathErr "open" name .notExist)
      else .error (.pathErr "open" name (.wrapped err))

/-- C6: for a valid non-root path, Open tries the object fetch first and
returns the file handle on success; on a not-found fetch error it falls
back to the synthetic-directory probe and returns a directory handle when
the probe finds children; when the path resolves to neither (object fetch
not-found, head not-found, empty one-key listing) it fails with a
`PathError{Op: "open", Path: name, Err: fs.ErrNotExist}`. -/
theorem c6_open_fallback (cl : S3ClientM) (name : String)
    (hv : validPath name = true) (hroot : name ≠ ".") :
    (∀ out, cl.getObject name = .ok out →
      openGo cl name = .ok (.fileHandle out.body
        (match out.contentLength, out.lastModified with
         | some len, some lm => some ⟨pathBase name, len, false, lm⟩
         | _, _ => none))) ∧
    (∀ g h out2, cl.getObject name = .error g → isNotFoundErr g = true →
      cl.headObject name = .error h → isNotFoundErr h = true →
      cl.listObjectsV2 (name ++ "/") = .ok out2 →
      (out2.commonPrefixes.length > 0 ∨ out2.contents.length > 0) →
      openGo cl name = .ok (.dirHandle name)) ∧
    (∀ g h out2, cl.getObject name = .error g → isNotFoundErr g = true →
      cl.headObject name = .error h → isNotFoundErr h = true →
      cl.listObjectsV2 (name ++ "/") = .ok out2 →
      out2.commonPrefixes = [] → out2.contents = [] →
      openGo cl name = .error (.pathErr "open" name .notExist)) := by
  have hvneg : ¬ (¬ validPath name = true) := by simp [hv]
  refine ⟨?_, ?_, ?_⟩
  · intro out hget
    rw [openGo, if_neg hvneg, if_neg hroot, hget]
  · intro g h out2 hget hgnf hhead hhnf hlist hne
    rw [openGo, if_neg hvneg, if_neg hroot, hget]
    simp only [hgnf, if_pos]
    have hdir : openDirGo cl name = .ok name := by
      rw [openDirGo, statGo, if_neg hvneg, if_neg hroot, hhead]
      dsimp only
      rw [if_neg (by simp [hhnf]), hlist]
      dsimp only
      rw [if_pos hne]
    rw [hdir]
  · intro g h out2 hget hgnf hhead hhnf hlist hcp hct
    rw [openGo, if_neg hvneg, if_neg hroot, hget]
    simp only [hgnf, if_pos]
    have hdir : openDirGo cl name = .error .notExist := by
      rw [openDirGo, statGo, if_neg hvneg, if_neg hroot, hhead]
      dsimp only
      rw [if_neg (by simp [hhnf]), hlist]
      dsimp only
      rw [if_neg (by simp [hcp, hct])]
    rw [hdir]
    dsimp only
    rw [if_neg (by simp)]

/-- Concrete client for the C6 witness: no object under "x", head misses,
and the one-key listing of "x/" is empty, so Open("x") must not-exist. -/
def c6clW : S3ClientM where
  getObject := fun _ => .error (.aws "NoSuchKey" 404)
  getObjectRange := fun _ _ _ => .error (.aws "NoSuchKey" 404)
  headObject := fun _ => .error (.aws "NotFound" 404)
  listObjectsV2 := fun _ => .ok ⟨[], []⟩

/-- Witness for C6: the not-exist arm evaluated on `c6clW` at path "x". -/
theorem c6_open_fallback_witness :
    (validPath "x" = true ∧ ("x" : String) ≠ ".") ∧
      openGo c6clW "x" = .error (.pathErr "open" "x" .notExist) :=
  ⟨⟨by decide, by decide⟩,
   (c6_open_fallback c6clW "x" (by decide) (by decide)).2.2
     (.aws "NoSuchKey" 404) (.aws "NotFound" 404) ⟨[], []⟩
     rfl (by decide) rfl (by decide) rfl rfl rfl⟩

/-- The metadata source of a file handle's `stat` closure: the cached
`fileInfo` captured at open time (when `GetObject` returned full metadata)
or a network `stat` fallback. -/
inductive StatSrc
  | cached (fi : Ent)
  | net
deriving DecidableEq

/-- Seekable file handle state (the `file` struct in file.go): key, current
offset, byte stream, ETag captured at open, and the stat closure. -/
structure FileSt where
  name : String
  offset : Int
  stream : StreamM
  eTag : String
  statSrc : StatSrc
deriving DecidableEq

/-- One S3 network call, recorded for frame conditions. -/
inductive NetCall
  | head (key : String)
  | getRange (key : String) (start : Int) (ifMatch : String)
  | listV2 (pfx : String)
deriving DecidableEq

/-- The network calls issued by one run of the `stat` helper. -/
def statGoCalls (cl : S3ClientM) (name : String) : List NetCall :=
  if ¬ validPath name = true then []
  else if name = "." then []
  else
    match cl.headObject name with
    | .ok _ => [.head name]
    | .error e =>
      if ¬ isNotFoundErr e = true then [.head name]
      else [.head name, .listV2 (name ++ "/")]

/-- `f.Stat()` with its network trace: the cached closure answers for free,
the fallback runs the `stat` helper over the network. -/
def fileStat (cl : S3ClientM) (f : FileSt) : Except StatErr StatRes × List NetCall :=
  match f.statSrc with
  | .cached fi => (.ok (.fileInfo fi), [])
  | .net => (statGo cl f.name, statGoCalls cl f.name)

/-- `Size()` of a `stat` result (a directory handle's `fileInfo` has size 0). -/
def statResSize : StatRes → Int
  | .fileInfo fi => fi.size
  | .dirHandle _ => 0

/-- Errors out of `file.Seek`: an `errors.New` message, a `Stat` failure,
the wrapped concurrent-modification `fs.ErrNotExist`, or a raw client error. -/
inductive SeekErr
  | msg (s : String)
  | stat (e : StatErr)
  | changed
  | aws (e : GErr)
deriving DecidableEq

/-- Was the ranged refetch refused with HTTP 412 (precondition failed)? -/
def isPrecondFailed : GErr → Bool
  | .aws _ status => status = 412
  | .generic _ => false

/-- The absolute target offset of `file.Seek`'s whence switch
(`io.SeekStart = 0`, `io.SeekCurrent = 1`, `io.SeekEnd = 2`);
`none` for an unknown whence. -/
def seekTarget (off : Int) (whence : Nat) (f : FileSt) (size : Int) : Option Int :=
  match whence with
  | 0 => some off
  | 1 => some (f.offset + off)
  | 2 => some (size + off)
  | _ => none

/-- The `file.Seek` method of file.go: stat for the size, compute the target,
no-op when unchanged, reject negative targets and missing ETags, swap in the
`eofReader` at or past end-of-object, otherwise reissue a ranged conditional
`GetObject` (HTTP 412 becomes the wrapped `fs.ErrNotExist`).  Returns the
result, the new handle state, and the network calls made. -/
def fileSeek (cl : S3ClientM) (off : Int) (whence : Nat) (f : FileSt) :
    Except SeekErr Int × FileSt × List NetCall :=
  match fileStat cl f with
  | (.error e, stCalls) => (.error (.stat e), f, stCalls)
  | (.ok st, stCalls) =>
    let size := statResSize st
    match seekTarget off whence f size with
    | none => (.error (.msg "s3fs.file.Seek: invalid whence"), f, stCalls)
    | some newOffset =>
      if f.offset = newOffset then (.ok newOffset, f, stCalls)
      else if newOffset < 0 then
        (.error (.msg "s3fs.file.Seek: seeked to a negative position"), f, stCalls)
      else if f.eTag = "" then
        (.error (.msg "s3fs.file.Seek: cannot seek. remote file has no etag"), f, stCalls)
      else if size ≤ newOffset then
        (.ok newOffset, { f with stream := .eofR, offset := newOffset }, stCalls)
      else
        match cl.getObjectRange f.name newOffset f.eTag with
        | .ok rawObject =>
          (.ok newOffset, { f with offset := newOffset, stream := rawObject.body },
           stCalls ++ [.getRange f.name newOffset f.eTag])
        | .error e =>
          if isPrecondFailed e = true
          then (.error .changed, f, stCalls ++ [.getRange f.name newOffset f.eTag])
          else (.error (.aws e), f, stCalls ++ [.getRange f.name newOffset f.eTag])

/-- End-of-stream signal of a byte-stream read (`io.EOF`). -/
inductive ReadErr
  | eofR
deriving DecidableEq

/-- The `file.Read` method: read from the wrapped stream and advance the
offset by the bytes actually read; the `eofReader` always yields
`(0, io.EOF)`. -/
def fileRead (p : Nat) (f : FileSt) : (Nat × Option ReadErr) × FileSt :=
  match f.stream with
  | .eofR => ((0, some .eofR), { f with offset := f.offset + (0 : Int) })
  | .bytes bs =>
    if bs.isEmpty then ((0, some .eofR), { f with offset := f.offset + (0 : Int) })
    else
      let n := min p bs.length
      ((n, none), { f with stream := .bytes (bs.drop n), offset := f.offset + (n : Int) })

theorem statGoCalls_no_getRange (cl : S3ClientM) (name key : String)
    (s : Int) (im : String) : NetCall.getRange key s im ∉ statGoCalls cl name := by
  rw [statGoCalls]
  split
  · simp
  · split
    · simp
    · split
      · simp
      · split <;> simp

/-- C7 (amended): when `Stat` succeeds and the computed target equals the
current offset, Seek returns that offset with no error, leaves the handle
(stream and offset) unchanged, and performs no ranged object refetch; the
only possible network traffic is the unconditional metadata `Stat` lookup,
which is absent whenever the handle cached its metadata at open time. -/
theorem c7_seek_noop (cl : S3ClientM) (off : Int) (whence : Nat) (f : FileSt)
    (st : StatRes) (calls : List NetCall)
    (hst : fileStat cl f = (.ok st, calls))
    (htarget : seekTarget off whence f (statResSize st) = some f.offset) :
    fileSeek cl off whence f = (.ok f.offset, f, calls) ∧
      (∀ fi, f.statSrc = .cached fi → calls = []) ∧
      ∀ key s im, NetCall.getRange key s im ∉ calls := by
  refine ⟨?_, ?_, ?_⟩
  · rw [fileSeek, hst]
    dsimp only
    rw [htarget]
    dsimp only
    rw [if_pos rfl]
  · intro fi hc
    simp only [fileStat, hc] at hst
    have := congrArg Prod.snd hst
    simpa using this.symm
  · intro key s im hmem
    rcases hsrc : f.statSrc with fi | _
    · simp only [fileStat, hsrc] at hst
      have : calls = [] := by
        have := congrArg Prod.snd hst
        simpa using this.symm
      rw [this] at hmem
      simp at hmem
    · simp only [fileStat, hsrc] at hst
      have hcalls : calls = statGoCalls cl f.name := by
        have := congrArg Prod.snd hst
        simpa using this.symm
      rw [hcalls] at hmem
      exact statGoCalls_no_getRange cl f.name key s im hmem

/-- Client for the C7 counterexample: `HeadObject` answers with metadata. -/
def c7clW : S3ClientM where
  getObject := fun _ => .error (.generic 0)
  getObjectRange := fun _ _ _ => .error (.generic 0)
  headObject := fun _ => .ok ⟨some 10, some 5⟩
  listObjectsV2 := fun _ => .ok ⟨[], []⟩

/-- File handle for the C7 counterexample: metadata was NOT cached at open,
so the `stat` closure goes to the network. -/
def c7fW : FileSt := ⟨"k", 5, .bytes [1, 2], "e", .net⟩

/-- C7 counterexample: `Seek(0, io.SeekCurrent)` targets the current offset
(a pure no-op by the claim), yet the handle issues a `HeadObject` network
call, because `Seek` runs `f.Stat()` before the no-op check and this
handle's metadata was not cached at open time. -/
theorem c7_seek_noop_netcall_cex :
    seekTarget 0 1 c7fW (statResSize (StatRes.fileInfo ⟨"k", 10, false, 5⟩)) =
        some c7fW.offset ∧
      (fileSeek c7clW 0 1 c7fW).1 = .ok c7fW.offset ∧
      (fileSeek c7clW 0 1 c7fW).2.2 = [.head "k"] ∧
      (fileSeek c7clW 0 1 c7fW).2.2 ≠ ([] : List NetCall) :=
  ⟨rfl, rfl, rfl, by decide⟩

/-- Witness for the amended C7: cached metadata, `Seek(0, io.SeekCurrent)`. -/
theorem c7_seek_noop_witness :
    (fileStat c7clW ⟨"k", 5, .bytes [1, 2], "e", .cached ⟨"k", 10, false, 5⟩⟩ =
        (.ok (.fileInfo ⟨"k", 10, false, 5⟩), []) ∧
      seekTarget 0 1 ⟨"k", 5, .bytes [1, 2], "e", .cached ⟨"k", 10, false, 5⟩⟩
        (statResSize (.fileInfo ⟨"k", 10, false, 5⟩)) =
        some (FileSt.offset ⟨"k", 5, .bytes [1, 2], "e", .cached ⟨"k", 10, false, 5⟩⟩)) ∧
      (fileSeek c7clW 0 1 ⟨"k", 5, .bytes [1, 2], "e", .cached ⟨"k", 10, false, 5⟩⟩ =
        (.ok (FileSt.offset ⟨"k", 5, .bytes [1, 2], "e", .cached ⟨"k", 10, false, 5⟩⟩),
          ⟨"k", 5, .bytes [1, 2], "e", .cached ⟨"k", 10, false, 5⟩⟩, []) ∧
        (∀ fi, FileSt.statSrc ⟨"k", 5, .bytes [1, 2], "e", .cached ⟨"k", 10, false, 5⟩⟩ =
          .cached fi → ([] : List NetCall) = []) ∧
        ∀ key s im, NetCall.getRange key s im ∉ ([] : List NetCall)) :=
  ⟨⟨rfl, rfl⟩, c7_seek_noop c7clW 0 1 ⟨"k", 5, .bytes [1, 2], "e",
    .cached ⟨"k", 10, false, 5⟩⟩ (.fileInfo ⟨"k", 10, false, 5⟩) [] rfl rfl⟩

/-- C8: when `Stat` succeeds, the computed target differs from the current
offset, is non-negative, and lies at or beyond the object size (and the
handle has an ETag), Seek swaps in the always-exhausted `eofReader`, sets
the offset to the target, and returns it; every subsequent `Read` then
returns zero bytes with `io.EOF` and leaves the handle (offset included)
unchanged. -/
theorem c8_seek_past_end (cl : S3ClientM) (off : Int) (whence : Nat) (f : FileSt)
    (st : StatRes) (calls : List NetCall) (tgt : Int)
    (hst : fileStat cl f = (.ok st, calls))
    (ht : seekTarget off whence f (statResSize st) = some tgt)
    (hne : f.offset ≠ tgt)
    (hpos : 0 ≤ tgt)
    (hetag : f.eTag ≠ "")
    (hsize : statResSize st ≤ tgt) :
    fileSeek cl off whence f =
        (.ok tgt, { f with stream := .eofR, offset := tgt }, calls) ∧
      ∀ p, fileRead p { f with stream := .eofR, offset := tgt } =
        ((0, some .eofR), { f with stream := .eofR, offset := tgt }) := by
  constructor
  · rw [fileSeek, hst]
    dsimp only
    rw [ht]
    dsimp only
    rw [if_neg hne, if_neg (by omega), if_neg hetag, if_pos hsize]
  · intro p
    rw [fileRead]
    simp

/-- Witness for C8: cached size 7, offset 2, `Seek(10, io.SeekStart)`. -/
theorem c8_seek_past_end_witness :
    (fileStat c7clW ⟨"k", 2, .bytes [9, 9, 9], "e", .cached ⟨"k", 7, false, 3⟩⟩ =
        (.ok (.fileInfo ⟨"k", 7, false, 3⟩), []) ∧
      seekTarget 10 0 ⟨"k", 2, .bytes [9, 9, 9], "e", .cached ⟨"k", 7, false, 3⟩⟩
        (statResSize (.fileInfo ⟨"k", 7, false, 3⟩)) = some 10 ∧
      (2 : Int) ≠ 10 ∧ (0 : Int) ≤ 10 ∧ ("e" : String) ≠ "" ∧
      statResSize (.fileInfo ⟨"k", 7, false, 3⟩) ≤ 10) ∧
      (fileSeek c7clW 10 0 ⟨"k", 2, .bytes [9, 9, 9], "e", .cached ⟨"k", 7, false, 3⟩⟩ =
        (.ok 10, { (⟨"k", 2, .bytes [9, 9, 9], "e", .cached ⟨"k", 7, false, 3⟩⟩ : FileSt)
          with stream := .eofR, offset := 10 }, []) ∧
      ∀ p, fileRead p { (⟨"k", 2, .bytes [9, 9, 9], "e",
          .cached ⟨"k", 7, false, 3⟩⟩ : FileSt) with stream := .eofR, offset := 10 } =
        ((0, some .eofR), { (⟨"k", 2, .bytes [9, 9, 9], "e",
          .cached ⟨"k", 7, false, 3⟩⟩ : FileSt) with stream := .eofR, offset := 10 })) :=
  ⟨⟨rfl, rfl, by decide, by decide, by decide, by decide⟩,
   c8_seek_past_end c7clW 10 0 ⟨"k", 2, .bytes [9, 9, 9], "e", .cached ⟨"k", 7, false, 3⟩⟩
     (.fileInfo ⟨"k", 7, false, 3⟩) [] 10 rfl rfl (by decide) (by decide) (by decide)
     (by decide)⟩

/-- C9: when `Stat` succeeds, an unsupported whence fails with the
invalid-whence error and a computed negative target differing from the
current offset fails with the negative-position error; in both cases the
handle state is returned unchanged. -/
theorem c9_seek_invalid (cl : S3ClientM) (off : Int) (whence : Nat) (f : FileSt)
    (st : StatRes) (calls : List NetCall)
    (hst : fileStat cl f = (.ok st, calls)) :
    (seekTarget off whence f (statResSize st) = none →
      fileSeek cl off whence f =
        (.error (.msg "s3fs.file.Seek: invalid whence"), f, calls)) ∧
    (∀ tgt, seekTarget off whence f (statResSize st) = some tgt →
      f.offset ≠ tgt → tgt < 0 →
      fileSeek cl off whence f =
        (.error (.msg "s3fs.file.Seek: seeked to a negative position"), f, calls)) := by
  constructor
  · intro ht
    rw [fileSeek, hst]
    dsimp only
    rw [ht]
  · intro tgt ht hne hneg
    rw [fileSeek, hst]
    dsimp only
    rw [ht]
    dsimp only
    rw [if_neg hne, if_pos hneg]

/-- Witness for C9: whence 3 is rejected; `Seek(-10, io.SeekStart)` from
offset 2 is rejected as negative; the handle is unchanged both times. -/
theorem c9_seek_invalid_witness :
    (fileStat c7clW ⟨"k", 2, .bytes [9], "e", .cached ⟨"k", 7, false, 3⟩⟩ =
        (.ok (.fileInfo ⟨"k", 7, false, 3⟩), []) ∧
      seekTarget 0 3 ⟨"k", 2, .bytes [9], "e", .cached ⟨"k", 7, false, 3⟩⟩
        (statResSize (.fileInfo ⟨"k", 7, false, 3⟩)) = none ∧
      seekTarget (-10) 0 ⟨"k", 2, .bytes [9], "e", .cached ⟨"k", 7, false, 3⟩⟩
        (statResSize (.fileInfo ⟨"k", 7, false, 3⟩)) = some (-10) ∧
      FileSt.offset ⟨"k", 2, .bytes [9], "e", .cached ⟨"k", 7, false, 3⟩⟩ ≠ -10 ∧
      (-10 : Int) < 0) ∧
      (fileSeek c7clW 0 3 ⟨"k", 2, .bytes [9], "e", .cached ⟨"k", 7, false, 3⟩⟩ =
        (.error (.msg "s3fs.file.Seek: invalid whence"),
          ⟨"k", 2, .bytes [9], "e", .cached ⟨"k", 7, false, 3⟩⟩, []) ∧
      fileSeek c7clW (-10) 0 ⟨"k", 2, .bytes [9], "e", .cached ⟨"k", 7, false, 3⟩⟩ =
        (.error (.msg "s3fs.file.Seek: seeked to a negative position"),
          ⟨"k", 2, .bytes [9], "e", .cached ⟨"k", 7, false, 3⟩⟩, [])) :=
  ⟨⟨rfl, rfl, rfl, by decide, by decide⟩,
   (c9_seek_invalid c7clW 0 3 ⟨"k", 2, .bytes [9], "e", .cached ⟨"k", 7, false, 3⟩⟩
     (.fileInfo ⟨"k", 7, false, 3⟩) [] rfl).1 rfl,
   (c9_seek_invalid c7clW (-10) 0 ⟨"k", 2, .bytes [9], "e", .cached ⟨"k", 7, false, 3⟩⟩
     (.fileInfo ⟨"k", 7, false, 3⟩) [] rfl).2 (-10) rfl (by decide) (by decide)⟩

/-- Has the server marked this page as the last one
(`IsTruncated != nil && !*IsTruncated`)? -/
def pgDone (out : ListPage) : Bool :=
  match out.isTruncated with
  | some b => !b
  | none => false

/-- The buffer after `readNext` appended a page's contents (keeping Go's
nil slice when nothing was ever appended). -/
def readBuf1 (buf : Option (List Ent)) (cs : List S3Obj) : Option (List Ent) :=
  match buf, cs with
  | none, [] => none
  | b, cs => some (b.getD [] ++ cs.map fileEntOf)

/-- `readNext`'s fold of a page's common prefixes into the pending map:
entries not yet present are appended with the used flag off. -/
def addDirs (ds : List (Ent × Bool)) (cps : List String) : List (Ent × Bool) :=
  cps.foldl (fun ds p =>
    let de := dirEntOf p
    if ds.any (fun q => q.1 = de) then ds else ds ++ [(de, false)]) ds

/-- The not-yet-released entries of a pending map. -/
def unrel (ds : List (Ent × Bool)) : List Ent :=
  ds.filterMap fun p => if p.2 = false then some p.1 else none

/-- The keys of a pending map. -/
def dkeys (ds : List (Ent × Bool)) : List Ent := ds.map Prod.fst

/-- File entries contributed by one page. -/
def pageFileEnts (pg : ListPage) : List Ent := pg.contents.map fileEntOf

/-- File entries of a whole page queue, in listing order. -/
def allFileEnts (ps : List ListPage) : List Ent := (ps.map pageFileEnts).flatten

/-- All common-prefix strings of a page queue, in listing order. -/
def allCps (ps : List ListPage) : List String := (ps.map ListPage.commonPrefixes).flatten

/-- Directory entries a prefix list adds over the existing keys, in
first-occurrence order (the pending map's dedup across pages). -/
def newDirEnts (keys : List Ent) : List String → List Ent
  | [] => []
  | p :: rest =>
    let de := dirEntOf p
    if de ∈ keys then newDirEnts keys rest
    else de :: newDirEnts (keys ++ [de]) rest

/-- All entries a state's remaining pages will contribute, given the
already-known pending keys. -/
def futureEnts (keys : List Ent) : List ListPage → List Ent
  | [] => []
  | pg :: rest =>
    pageFileEnts pg ++ newDirEnts keys pg.commonPrefixes ++
      futureEnts (keys ++ newDirEnts keys pg.commonPrefixes) rest

/-- Well-formed truncation flags: at least one page, every page but the
last marked truncated, the last marked final. -/
def flagsOk : List ListPage → Bool
  | [] => false
  | [pg] => pgDone pg
  | pg :: pg2 :: rest => !pgDone pg && flagsOk (pg2 :: rest)

theorem readBuf1_getD (buf : Option (List Ent)) (cs : List S3Obj) :
    (readBuf1 buf cs).getD [] = buf.getD [] ++ cs.map fileEntOf := by
  rcases buf with _ | b <;> rcases cs with _ | ⟨c, cs⟩ <;> simp [readBuf1]

theorem relFlag_done (buf : List Ent) (l : Nat) (de : Ent) :
    relFlag buf l true de = true := by
  simp [relFlag]

theorem rel_unrel_perm (done : Bool) (buf : List Ent) (l : Nat)
    (ds : List (Ent × Bool)) :
    ((ds.filterMap fun p =>
        if p.2 = false ∧ relFlag buf l done p.1 = true then some p.1 else none) ++
      unrel (ds.map fun p => (p.1, p.2 || relFlag buf l done p.1))).Perm
      (unrel ds) := by
  induction ds with
  | nil => simp [unrel]
  | cons p ds ih =>
    simp only [unrel, List.filterMap_map] at ih
    rcases p with ⟨de, used⟩
    rcases used with _ | _
    · by_cases hr : relFlag buf l done de = true
      · simp only [List.filterMap_cons, List.map_cons, unrel, hr]
        norm_num
        exact ih
      · have hrf : relFlag buf l done de = false := by
          simpa using hr
        simp only [List.filterMap_cons, List.map_cons, unrel, hrf]
        norm_num
        exact List.perm_middle.trans (ih.cons de)
    · simp only [List.filterMap_cons, List.map_cons, unrel]
      norm_num
      exact ih

theorem unrel_done (buf : List Ent) (l : Nat) (ds : List (Ent × Bool)) :
    unrel (ds.map fun p => (p.1, p.2 || relFlag buf l true p.1)) = [] := by
  induction ds with
  | nil => simp [unrel]
  | cons p ds ih =>
    simp only [List.map_cons, unrel, List.filterMap_cons] at ih ⊢
    rw [relFlag_done]
    simp only [Bool.or_true]
    rw [if_neg (by simp)]
    exact ih

theorem dkeys_merge (buf : List Ent) (l : Nat) (done : Bool)
    (ds : List (Ent × Bool)) :
    dkeys (ds.map fun p => (p.1, p.2 || relFlag buf l done p.1)) = dkeys ds := by
  simp [dkeys, List.map_map, Function.comp]

/-- Functional specification of `mergeDirFiles` at the multiset level:
the new buffer is a sorted permutation of the old buffer plus the released
entries, releases move exactly from the unreleased set, keys are kept, and
exhaustion flushes everything. -/
theorem mergeDirFiles_spec (done : Bool) (b : Option (List Ent))
    (ds : List (Ent × Bool)) :
    ∃ rel : List Ent,
      (mergeDirFiles done b ds).1.Perm (b.getD [] ++ rel) ∧
      (rel ++ unrel (mergeDirFiles done b ds).2).Perm (unrel ds) ∧
      dkeys (mergeDirFiles done b ds).2 = dkeys ds ∧
      (done = true → unrel (mergeDirFiles done b ds).2 = []) ∧
      List.Sorted entLe (mergeDirFiles done b ds).1 := by
  refine ⟨ds.filterMap fun p =>
    if p.2 = false ∧ relFlag (b.getD []) (b.getD []).length done p.1 = true
    then some p.1 else none, ?_, ?_, ?_, ?_, ?_⟩
  · simp only [mergeDirFiles]
    exact List.perm_insertionSort entLe _
  · simp only [mergeDirFiles]
    exact rel_unrel_perm done (b.getD []) (b.getD []).length ds
  · simp only [mergeDirFiles]
    exact dkeys_merge _ _ _ _
  · intro hd
    subst hd
    simp only [mergeDirFiles]
    exact unrel_done _ _ _
  · simp only [mergeDirFiles]
    exact List.sorted_insertionSort entLe _

theorem readNext_cons (name : String) (out : ListPage) (rest : List ListPage)
    (buf : Option (List Ent)) (dirs : Option (List (Ent × Bool)))
    (hne : ¬(name ≠ "." ∧ out.commonPrefixes.length + out.contents.length = 0)) :
    DirS.readNext ⟨name, out :: rest, false, buf, dirs⟩ =
      (⟨name, rest, pgDone out,
        some (mergeDirFiles (pgDone out) (readBuf1 buf out.contents)
          (addDirs (dirs.getD []) out.commonPrefixes)).1,
        some (mergeDirFiles (pgDone out) (readBuf1 buf out.contents)
          (addDirs (dirs.getD []) out.commonPrefixes)).2⟩,
       if pgDone out then some .eofR else none) := by
  rw [DirS.readNext]
  dsimp only
  rw [if_neg (by simp), if_neg hne]
  rfl

theorem dkeys_append (ds es : List (Ent × Bool)) :
    dkeys (ds ++ es) = dkeys ds ++ dkeys es := by
  simp [dkeys]

theorem unrel_append (ds es : List (Ent × Bool)) :
    unrel (ds ++ es) = unrel ds ++ unrel es := by
  simp [unrel]

theorem addDirs_eq (cps : List String) : ∀ ds : List (Ent × Bool),
    addDirs ds cps = ds ++ (newDirEnts (dkeys ds) cps).map (fun de => (de, false)) := by
  induction cps with
  | nil =>
    intro ds
    rw [addDirs, List.foldl_nil]
    rw [show newDirEnts (dkeys ds) [] = [] from rfl]
    simp
  | cons p rest ih =>
    intro ds
    rw [addDirs, List.foldl_cons]
    have hany : (ds.any fun q => q.1 = dirEntOf p) = true ↔ dirEntOf p ∈ dkeys ds := by
      rw [List.any_eq_true]
      constructor
      · rintro ⟨q, hq, hqe⟩
        rw [dkeys, List.mem_map]
        exact ⟨q, hq, by simpa using hqe⟩
      · intro h
        rw [dkeys, List.mem_map] at h
        obtain ⟨q, hq, hqe⟩ := h
        exact ⟨q, hq, by simpa using hqe⟩
    by_cases hin : dirEntOf p ∈ dkeys ds
    · simp only
      rw [if_pos (hany.mpr hin)]
      have := ih ds
      rw [addDirs] at this
      rw [this]
      rw [show newDirEnts (dkeys ds) (p :: rest) =
        (if dirEntOf p ∈ dkeys ds then newDirEnts (dkeys ds) rest
         else dirEntOf p :: newDirEnts (dkeys ds ++ [dirEntOf p]) rest) from rfl]
      rw [if_pos hin]
    · simp only
      rw [if_neg (by rw [hany]; exact hin)]
      have := ih (ds ++ [(dirEntOf p, false)])
      rw [addDirs] at this
      rw [this, dkeys_append]
      rw [show newDirEnts (dkeys ds) (p :: rest) =
        (if dirEntOf p ∈ dkeys ds then newDirEnts (dkeys ds) rest
         else dirEntOf p :: newDirEnts (dkeys ds ++ [dirEntOf p]) rest) from rfl]
      rw [if_neg hin]
      simp [dkeys]

theorem unrel_addDirs (ds : List (Ent × Bool)) (cps : List String) :
    unrel (addDirs ds cps) = unrel ds ++ newDirEnts (dkeys ds) cps := by
  rw [addDirs_eq, unrel_append]
  congr 1
  simp only [unrel, List.filterMap_map]
  generalize newDirEnts (dkeys ds) cps = l
  induction l with
  | nil => simp
  | cons e l ihl => simp [ihl]

theorem dkeys_addDirs (ds : List (Ent × Bool)) (cps : List String) :
    dkeys (addDirs ds cps) = dkeys ds ++ newDirEnts (dkeys ds) cps := by
  rw [addDirs_eq, dkeys_append]
  congr 1
  simp only [dkeys, List.map_map]
  generalize newDirEnts (List.map Prod.fst ds) cps = l
  induction l with
  | nil => simp
  | cons e l ihl => simp [ihl]

theorem newDirEnts_append (a b : List String) : ∀ keys : List Ent,
    newDirEnts keys (a ++ b) =
      newDirEnts keys a ++ newDirEnts (keys ++ newDirEnts keys a) b := by
  induction a with
  | nil =>
    intro keys
    rw [show newDirEnts keys ([] : List String) = [] from rfl]
    simp
  | cons p rest ih =>
    intro keys
    rw [List.cons_append]
    rw [show newDirEnts keys (p :: (rest ++ b)) =
      (if dirEntOf p ∈ keys then newDirEnts keys (rest ++ b)
       else dirEntOf p :: newDirEnts (keys ++ [dirEntOf p]) (rest ++ b)) from rfl]
    rw [show newDirEnts keys (p :: rest) =
      (if dirEntOf p ∈ keys then newDirEnts keys rest
       else dirEntOf p :: newDirEnts (keys ++ [dirEntOf p]) rest) from rfl]
    by_cases hin : dirEntOf p ∈ keys
    · rw [if_pos hin, if_pos hin, ih]
    · rw [if_neg hin, if_neg hin]
      rw [ih (keys ++ [dirEntOf p])]
      simp [List.append_assoc]

theorem futureEnts_perm (ps : List ListPage) : ∀ keys : List Ent,
    (futureEnts keys ps).Perm
      (allFileEnts ps ++ newDirEnts keys (allCps ps)) := by
  induction ps with
  | nil =>
    intro keys
    rw [show newDirEnts keys (allCps []) = [] from rfl]
    simp [futureEnts, allFileEnts]
  | cons pg rest ih =>
    intro keys
    rw [futureEnts]
    have h1 := ih (keys ++ newDirEnts keys pg.commonPrefixes)
    have hfe : allFileEnts (pg :: rest) = pageFileEnts pg ++ allFileEnts rest := by
      simp [allFileEnts]
    have hcp : allCps (pg :: rest) = pg.commonPrefixes ++ allCps rest := by
      simp [allCps]
    rw [hfe, hcp, newDirEnts_append]
    rw [← Multiset.coe_eq_coe] at h1 ⊢
    simp only [← Multiset.coe_add, List.append_assoc] at h1 ⊢
    rw [h1]
    abel

theorem readAllF_ok (fuel : Nat) : ∀ d : DirS, d.pages.length < fuel →
    d.done = false → flagsOk d.pages = true →
    (∀ pg ∈ d.pages, d.name = "." ∨ pg.commonPrefixes ≠ [] ∨ pg.contents ≠ []) →
    ∃ B ds2, readAllF fuel d = (⟨d.name, [], true, some B, some ds2⟩, none) ∧
      List.Sorted entLe B ∧ unrel ds2 = [] ∧
      B.Perm (d.buf.getD [] ++ unrel (d.dirs.getD []) ++
        futureEnts (dkeys (d.dirs.getD [])) d.pages) := by
  induction fuel with
  | zero =>
    intro d hlen
    omega
  | succ fuel ih =>
    rintro ⟨name, pages, done, buf, dirs⟩ hlen hdone hflags hroots
    simp only at hlen hdone hflags hroots ⊢
    subst hdone
    rcases pages with _ | ⟨pg, rest⟩
    · simp [flagsOk] at hflags
    have hne : ¬(name ≠ "." ∧ pg.commonPrefixes.length + pg.contents.length = 0) := by
      rcases hroots pg (by simp) with h | h | h
      · intro hc
        exact hc.1 h
      · intro hc
        apply h
        have hz : pg.commonPrefixes.length = 0 := by omega
        exact List.length_eq_zero.mp hz
      · intro hc
        apply h
        have hz : pg.contents.length = 0 := by omega
        exact List.length_eq_zero.mp hz
    rw [readAllF]
    rw [if_neg (by simp)]
    rw [readNext_cons name pg rest buf dirs hne]
    obtain ⟨rel, hm1, hm2, hm3, hm4, hm5⟩ :=
      mergeDirFiles_spec (pgDone pg) (readBuf1 buf pg.contents)
        (addDirs (dirs.getD []) pg.commonPrefixes)
    by_cases hd : pgDone pg = true
    · have hrest : rest = [] := by
        rcases rest with _ | ⟨pg2, rest'⟩
        · rfl
        · rw [show flagsOk (pg :: pg2 :: rest') =
            (!pgDone pg && flagsOk (pg2 :: rest')) from rfl] at hflags
          rw [hd] at hflags
          simp at hflags
      subst hrest
      rw [hd]
      refine ⟨(mergeDirFiles (pgDone pg) (readBuf1 buf pg.contents)
        (addDirs (dirs.getD []) pg.commonPrefixes)).1,
        (mergeDirFiles (pgDone pg) (readBuf1 buf pg.contents)
        (addDirs (dirs.getD []) pg.commonPrefixes)).2, ?_, hm5, hm4 hd, ?_⟩
      · rw [hd]
        rfl
      · rw [show futureEnts (dkeys (dirs.getD [])) [pg] =
          pageFileEnts pg ++ newDirEnts (dkeys (dirs.getD [])) pg.commonPrefixes ++
            futureEnts (dkeys (dirs.getD []) ++
              newDirEnts (dkeys (dirs.getD [])) pg.commonPrefixes) [] from rfl]
        rw [show futureEnts (dkeys (dirs.getD []) ++
              newDirEnts (dkeys (dirs.getD [])) pg.commonPrefixes) [] = [] from rfl]
        rw [hm4 hd] at hm2
        rw [unrel_addDirs] at hm2
        rw [readBuf1_getD] at hm1
        rw [← Multiset.coe_eq_coe] at hm1 hm2 ⊢
        simp only [← Multiset.coe_add, List.append_assoc, List.append_nil] at hm1 hm2 ⊢
        rw [hm1, hm2]
        simp only [pageFileEnts]
        abel
    · have hdf : pgDone pg = false := by
        simpa using hd
      rw [hdf]
      rcases rest with _ | ⟨pg2, rest'⟩
      · rw [show flagsOk [pg] = pgDone pg from rfl, hdf] at hflags
        simp at hflags
      have hflags' : flagsOk (pg2 :: rest') = true := by
        rw [show flagsOk (pg :: pg2 :: rest') =
          (!pgDone pg && flagsOk (pg2 :: rest')) from rfl, hdf] at hflags
        simpa using hflags
      obtain ⟨B, ds2, hrec, hsort, hunrel, hperm⟩ := ih
        ⟨name, pg2 :: rest', false,
          some (mergeDirFiles false (readBuf1 buf pg.contents)
            (addDirs (dirs.getD []) pg.commonPrefixes)).1,
          some (mergeDirFiles false (readBuf1 buf pg.contents)
            (addDirs (dirs.getD []) pg.commonPrefixes)).2⟩
        (by dsimp only; simp only [List.length_cons] at hlen ⊢; omega) rfl hflags'
        (by
          intro pg' hpg'
          exact hroots pg' (by simp [hpg']))
      refine ⟨B, ds2, ?_, hsort, hunrel, ?_⟩
      · exact hrec
      · simp only [Option.getD_some] at hperm
        rw [show futureEnts (dkeys (dirs.getD [])) (pg :: pg2 :: rest') =
          pageFileEnts pg ++ newDirEnts (dkeys (dirs.getD [])) pg.commonPrefixes ++
            futureEnts (dkeys (dirs.getD []) ++
              newDirEnts (dkeys (dirs.getD [])) pg.commonPrefixes) (pg2 :: rest') from rfl]
        rw [hdf] at hm1 hm2 hm3
        rw [hm3, dkeys_addDirs] at hperm
        rw [unrel_addDirs] at hm2
        rw [readBuf1_getD] at hm1
        simp only [pageFileEnts]
        rw [← Multiset.coe_eq_coe] at hm1 hm2 hperm ⊢
        simp only [← Multiset.coe_add, List.append_assoc] at hm1 hm2 hperm ⊢
        rw [hperm, hm1]
        trans ((buf.getD [] : Multiset Ent) +
          (List.map fileEntOf pg.contents : Multiset Ent) +
          ((rel : Multiset Ent) +
            (unrel (mergeDirFiles false (readBuf1 buf pg.contents)
              (addDirs (dirs.getD []) pg.commonPrefixes)).2 : Multiset Ent)) +
          (futureEnts (dkeys (dirs.getD []) ++
            newDirEnts (dkeys (dirs.getD [])) pg.commonPrefixes)
            (pg2 :: rest') : Multiset Ent))
        · abel
        rw [hm2]
        abel

theorem readDir_drain (n : Int) (hn : n ≤ 0) (name : String) (ps : List ListPage)
    (hflags : flagsOk ps = true)
    (hroots : ∀ pg ∈ ps, name = "." ∨ pg.commonPrefixes ≠ [] ∨ pg.contents ≠ []) :
    ∃ B, (DirS.readDir n (initDir name ps)).1 = some B ∧
      (DirS.readDir n (initDir name ps)).2.1 = none ∧
      List.Sorted entLe B ∧ B.Perm (futureEnts [] ps) := by
  obtain ⟨B, ds2, heq, hsort, hunrel, hperm⟩ :=
    readAllF_ok (ps.length + 1) (initDir name ps) (by simp [initDir]) rfl hflags hroots
  rw [DirS.readDir, if_pos hn]
  rw [show (initDir name ps).pages.length = ps.length from rfl]
  rw [heq]
  refine ⟨B, rfl, rfl, hsort, ?_⟩
  simpa [initDir, unrel, dkeys] using hperm

theorem newDirEnts_mem (cps : List String) : ∀ (keys : List Ent) (de : Ent),
    de ∈ newDirEnts keys cps ↔ (de ∉ keys ∧ de ∈ cps.map dirEntOf) := by
  induction cps with
  | nil =>
    intro keys de
    rw [show newDirEnts keys [] = [] from rfl]
    simp
  | cons p rest ih =>
    intro keys de
    rw [show newDirEnts keys (p :: rest) =
      (if dirEntOf p ∈ keys then newDirEnts keys rest
       else dirEntOf p :: newDirEnts (keys ++ [dirEntOf p]) rest) from rfl]
    by_cases hin : dirEntOf p ∈ keys
    · rw [if_pos hin, ih]
      simp only [List.map_cons, List.mem_cons]
      constructor
      · rintro ⟨h1, h2⟩
        exact ⟨h1, Or.inr h2⟩
      · rintro ⟨h1, h2 | h2⟩
        · exact absurd (h2 ▸ hin) h1
        · exact ⟨h1, h2⟩
    · rw [if_neg hin]
      simp only [List.mem_cons, ih, List.mem_append, List.mem_singleton, List.map_cons]
      constructor
      · rintro (h | ⟨h1, h2⟩)
        · exact ⟨h ▸ hin, Or.inl h⟩
        · exact ⟨fun hk => h1 (Or.inl hk), Or.inr h2⟩
      · rintro ⟨h1, h2 | h2⟩
        · exact Or.inl h2
        · by_cases hde : de = dirEntOf p
          · exact Or.inl hde
          · refine Or.inr ⟨?_, h2⟩
            rintro (hk | hk)
            · exact h1 hk
            · rcases hk with hk | hk
              · exact hde hk
              · simp at hk

theorem newDirEnts_nodup (cps : List String) : ∀ keys : List Ent,
    (newDirEnts keys cps).Nodup := by
  induction cps with
  | nil =>
    intro keys
    rw [show newDirEnts keys [] = [] from rfl]
    simp
  | cons p rest ih =>
    intro keys
    rw [show newDirEnts keys (p :: rest) =
      (if dirEntOf p ∈ keys then newDirEnts keys rest
       else dirEntOf p :: newDirEnts (keys ++ [dirEntOf p]) rest) from rfl]
    by_cases hin : dirEntOf p ∈ keys
    · rw [if_pos hin]
      exact ih keys
    · rw [if_neg hin]
      refine List.nodup_cons.mpr ⟨?_, ih (keys ++ [dirEntOf p])⟩
      intro hmem
      have := (newDirEnts_mem rest (keys ++ [dirEntOf p]) (dirEntOf p)).mp hmem
      exact this.1 (by simp)

theorem sorted_perm_eq : ∀ (l1 l2 : List Ent),
    l1.Perm l2 → List.Sorted entLe l1 → List.Sorted entLe l2 →
    (∀ x ∈ l1, ∀ y ∈ l1, x.name = y.name → x = y) → l1 = l2 := by
  intro l1
  induction l1 with
  | nil =>
    intro l2 hp _ _ _
    exact (hp.symm.eq_nil).symm ▸ rfl
  | cons a t1 ih =>
    intro l2 hp hs1 hs2 hinj
    rcases l2 with _ | ⟨b, t2⟩
    · exact absurd hp.eq_nil (by simp)
    · have hab : a = b := by
        have ha2 : a ∈ b :: t2 := hp.subset (by simp)
        have hb1 : b ∈ a :: t1 := hp.symm.subset (by simp)
        rcases List.mem_cons.mp ha2 with h | ha2'
        · exact h
        rcases List.mem_cons.mp hb1 with h | hb1'
        · exact h.symm
        have h1 : entLe a b := List.rel_of_sorted_cons hs1 b hb1'
        have h2 : entLe b a := List.rel_of_sorted_cons hs2 a ha2'
        have hname : a.name = b.name := by
          have := le_antisymm h1 h2
          exact congrArg String.mk this
        exact hinj a (by simp) b (by simp [hb1']) hname
      subst hab
      have htail := hp.cons_inv
      rw [ih t2 htail hs1.of_cons hs2.of_cons
        (fun x hx y hy h => hinj x (by simp [hx]) y (by simp [hy]) h)]

theorem allFileEnts_eq (ps : List ListPage) :
    allFileEnts ps = ((ps.map (fun pg => pg.contents)).flatten).map fileEntOf := by
  rw [allFileEnts, List.map_flatten, List.map_map]
  rfl

/-- C1: for every object set and common-prefix set and every two well-formed
ways the store splits that listing into pages, draining a fresh enumerator
with unrestricted batch size (`ReadDir`, n ≤ 0) returns exactly the same
name-sorted, duplicate-free entry sequence with no error: pagination is
observationally transparent.  (Entry names are assumed pairwise distinct,
as S3 guarantees under a single listed prefix.) -/
theorem c1_pagination_transparent
    (objs : List S3Obj) (pfxs : List String) (name : String) (n : Int)
    (ps1 ps2 : List ListPage)
    (hn : n ≤ 0)
    (hj1 : (ps1.map (fun pg => pg.contents)).flatten = objs)
    (hj2 : (ps2.map (fun pg => pg.contents)).flatten = objs)
    (hcA1 : ∀ x ∈ allCps ps1, x ∈ pfxs) (hcB1 : ∀ x ∈ pfxs, x ∈ allCps ps1)
    (hcA2 : ∀ x ∈ allCps ps2, x ∈ pfxs) (hcB2 : ∀ x ∈ pfxs, x ∈ allCps ps2)
    (hf1 : flagsOk ps1 = true) (hf2 : flagsOk ps2 = true)
    (hne1 : ∀ pg ∈ ps1, name = "." ∨ pg.commonPrefixes ≠ [] ∨ pg.contents ≠ [])
    (hne2 : ∀ pg ∈ ps2, name = "." ∨ pg.commonPrefixes ≠ [] ∨ pg.contents ≠ [])
    (hnames : ((objs.map fileEntOf ++ (pfxs.map dirEntOf).dedup).map Ent.name).Nodup) :
    ∃ es, (DirS.readDir n (initDir name ps1)).1 = some es ∧
      (DirS.readDir n (initDir name ps2)).1 = some es ∧
      (DirS.readDir n (initDir name ps1)).2.1 = none ∧
      (DirS.readDir n (initDir name ps2)).2.1 = none ∧
      List.Sorted entLe es ∧ es.Nodup := by
  obtain ⟨B1, hB1some, hB1err, hB1sort, hB1perm⟩ := readDir_drain n hn name ps1 hf1 hne1
  obtain ⟨B2, hB2some, hB2err, hB2sort, hB2perm⟩ := readDir_drain n hn name ps2 hf2 hne2
  have hcanonND : (objs.map fileEntOf ++ (pfxs.map dirEntOf).dedup).Nodup :=
    List.Nodup.of_map Ent.name hnames
  have hdirperm : ∀ ps : List ListPage, (∀ x ∈ allCps ps, x ∈ pfxs) →
      (∀ x ∈ pfxs, x ∈ allCps ps) →
      (newDirEnts [] (allCps ps)).Perm ((pfxs.map dirEntOf).dedup) := by
    intro ps hA hB
    apply (List.perm_ext_iff_of_nodup (newDirEnts_nodup _ _) (List.nodup_dedup _)).mpr
    intro de
    rw [newDirEnts_mem, List.mem_dedup]
    simp only [List.not_mem_nil, not_false_iff, true_and]
    constructor
    · intro hm
      rw [List.mem_map] at hm ⊢
      obtain ⟨p, hp, rfl⟩ := hm
      exact ⟨p, hA p hp, rfl⟩
    · intro hm
      rw [List.mem_map] at hm ⊢
      obtain ⟨p, hp, rfl⟩ := hm
      exact ⟨p, hB p hp, rfl⟩
  have hcanonperm1 : B1.Perm (objs.map fileEntOf ++ (pfxs.map dirEntOf).dedup) := by
    refine hB1perm.trans ((futureEnts_perm ps1 []).trans ?_)
    have hfe : allFileEnts ps1 = objs.map fileEntOf := by rw [allFileEnts_eq, hj1]
    rw [hfe]
    exact List.Perm.append_left _ (hdirperm ps1 hcA1 hcB1)
  have hcanonperm2 : B2.Perm (objs.map fileEntOf ++ (pfxs.map dirEntOf).dedup) := by
    refine hB2perm.trans ((futureEnts_perm ps2 []).trans ?_)
    have hfe : allFileEnts ps2 = objs.map fileEntOf := by rw [allFileEnts_eq, hj2]
    rw [hfe]
    exact List.Perm.append_left _ (hdirperm ps2 hcA2 hcB2)
  have hinj : ∀ x ∈ B1, ∀ y ∈ B1, x.name = y.name → x = y := by
    intro x hx y hy h
    exact List.inj_on_of_nodup_map hnames (hcanonperm1.subset hx)
      (hcanonperm1.subset hy) h
  have heq : B1 = B2 :=
    sorted_perm_eq B1 B2 (hcanonperm1.trans hcanonperm2.symm) hB1sort hB2sort hinj
  refine ⟨B1, hB1some, ?_, hB1err, hB2err, hB1sort, hcanonperm1.nodup_iff.mpr hcanonND⟩
  rw [hB2some, heq]

/-- Single-page split for the C1 witness: keys a/b.txt, a.txt, b/c.txt
listed at the root (one object, two common prefixes). -/
def c1ps1W : List ListPage := [⟨[⟨"a.txt", 7, 1⟩], ["a/", "b/"], some false⟩]

/-- Two-page split of the same listing for the C1 witness. -/
def c1ps2W : List ListPage :=
  [⟨[⟨"a.txt", 7, 1⟩], ["a/"], some true⟩, ⟨[], ["b/"], some false⟩]

/-- Objects of the C1 witness listing. -/
def c1objsW : List S3Obj := [⟨"a.txt", 7, 1⟩]

/-- Common prefixes of the C1 witness listing. -/
def c1pfxsW : List String := ["a/", "b/"]

/-- Witness for C1: the one-page and two-page splits of the same root
listing drain to the same sorted, duplicate-free sequence. -/
theorem c1_pagination_transparent_witness :
    ((c1ps1W.map (fun pg => pg.contents)).flatten = c1objsW ∧
      (c1ps2W.map (fun pg => pg.contents)).flatten = c1objsW ∧
      (∀ x ∈ allCps c1ps1W, x ∈ c1pfxsW) ∧ (∀ x ∈ c1pfxsW, x ∈ allCps c1ps1W) ∧
      (∀ x ∈ allCps c1ps2W, x ∈ c1pfxsW) ∧ (∀ x ∈ c1pfxsW, x ∈ allCps c1ps2W) ∧
      flagsOk c1ps1W = true ∧ flagsOk c1ps2W = true ∧
      ((c1objsW.map fileEntOf ++ (c1pfxsW.map dirEntOf).dedup).map Ent.name).Nodup) ∧
    (∃ es, (DirS.readDir (-1) (initDir "." c1ps1W)).1 = some es ∧
      (DirS.readDir (-1) (initDir "." c1ps2W)).1 = some es ∧
      (DirS.readDir (-1) (initDir "." c1ps1W)).2.1 = none ∧
      (DirS.readDir (-1) (initDir "." c1ps2W)).2.1 = none ∧
      List.Sorted entLe es ∧ es.Nodup) :=
  ⟨⟨by decide, by decide, by decide, by decide, by decide, by decide, rfl, rfl, by decide⟩,
   c1_pagination_transparent c1objsW c1pfxsW "." (-1) c1ps1W c1ps2W (by decide)
     (by decide) (by decide) (by decide) (by decide) (by decide) (by decide) rfl rfl
     (by intro pg hpg; left; rfl) (by intro pg hpg; left; rfl) (by decide)⟩

/-- The caller loop of the chunked-read claim: call `ReadDir(n)` repeatedly,
concatenating the returned batches, until an error or the end-of-sequence
signal (whose accompanying final batch is kept), fuelled. -/
def drainN (n : Int) : Nat → DirS → List Ent × Option RErr
  | 0, _ => ([], some .noPage)
  | fuel + 1, d =>
    match DirS.readDir n d with
    | (des, some .eofR, _) => (des.getD [], none)
    | (des, some e, _) => (des.getD [], some e)
    | (des, none, d1) =>
      match drainN n fuel d1 with
      | (rest, e2) => (des.getD [] ++ rest, e2)

/-- Pagination used by the C2 counterexample: object key "a.txt" on page 1,
common prefix "a/" on page 2 — exactly the raw S3 listing order, since
"a.txt" sorts before "a/" bytewise although its entry name "a.txt" sorts
after the directory's entry name "a". -/
def c2psW : List ListPage :=
  [⟨[⟨"a.txt", 7, 1⟩], [], some true⟩, ⟨[], ["a/"], some false⟩]

/-- C2 counterexample: over `c2psW`, repeatedly calling `ReadDir(1)` yields
the file "a.txt" before the directory "a" (the file is handed out before
page 2 reveals the directory), while the unrestricted drain of a fresh
enumerator yields them name-sorted: the concatenation differs from the
single-drain sequence, so chunked reading is not equivalent in general. -/
theorem c2_chunked_divergence_cex :
    (drainN 1 10 (initDir "." c2psW)).1 =
        [⟨"a.txt", 7, false, 1⟩, ⟨"a", 0, true, 0⟩] ∧
      (drainN 1 10 (initDir "." c2psW)).2 = none ∧
      (DirS.readDir (-1) (initDir "." c2psW)).1 =
        some [⟨"a", 0, true, 0⟩, ⟨"a.txt", 7, false, 1⟩] ∧
      (DirS.readDir (-1) (initDir "." c2psW)).2.1 = none ∧
      (drainN 1 10 (initDir "." c2psW)).1 ≠
        (DirS.readDir (-1) (initDir "." c2psW)).1.getD [] :=
  ⟨rfl, rfl, rfl, rfl, by decide⟩

/-- Entry names (as character lists) contributed by one page: file entries,
then directory entries. -/
def pageNames (pg : ListPage) : List (List Char) :=
  pg.contents.map (fun o => (fileEntOf o).name.data) ++
    pg.commonPrefixes.map (fun p => (dirEntOf p).name.data)

/-- Entry names of all remaining pages. -/
def futNames (ps : List ListPage) : List (List Char) := (ps.map pageNames).flatten

/-- The multiset of entries an enumerator state still buffers, still holds
pending, or will read from its remaining pages. -/
def msOf (d : DirS) : Multiset Ent :=
  (d.buf.getD [] : Multiset Ent) + (unrel (d.dirs.getD []) : Multiset Ent) +
    (futureEnts (dkeys (d.dirs.getD [])) d.pages : Multiset Ent)

theorem unrel_mem (ds : List (Ent × Bool)) (de : Ent) :
    de ∈ unrel ds ↔ (de, false) ∈ ds := by
  rw [unrel, List.mem_filterMap]
  constructor
  · rintro ⟨⟨e, u⟩, hmem, heq⟩
    rcases u with _ | _
    · simp only [Option.some.injEq] at heq
      simp only [reduceIte, Option.some.injEq] at heq
      exact heq ▸ hmem
    · simp at heq
  · intro h
    exact ⟨(de, false), h, by simp⟩

theorem merge_unrel_mem (done : Bool) (b : Option (List Ent))
    (ds : List (Ent × Bool)) (de : Ent) :
    de ∈ unrel (mergeDirFiles done b ds).2 ↔
      ((de, false) ∈ ds ∧ relFlag (b.getD []) (b.getD []).length done de = false) := by
  simp only [mergeDirFiles]
  rw [unrel_mem, List.mem_map]
  constructor
  · rintro ⟨⟨e, u⟩, hmem, heq⟩
    have he : e = de := congrArg Prod.fst heq
    have hu : (u || relFlag (b.getD []) (b.getD []).length done e) = false :=
      congrArg Prod.snd heq
    subst he
    rcases Bool.or_eq_false_iff.mp hu with ⟨hu1, hu2⟩
    subst hu1
    exact ⟨hmem, hu2⟩
  · rintro ⟨hmem, hrel⟩
    exact ⟨(de, false), hmem, by simp [hrel]⟩

theorem merge_buf_mem (done : Bool) (b : Option (List Ent))
    (ds : List (Ent × Bool)) (x : Ent) :
    x ∈ (mergeDirFiles done b ds).1 ↔
      (x ∈ b.getD [] ∨ ((x, false) ∈ ds ∧
        relFlag (b.getD []) (b.getD []).length done x = true)) := by
  simp only [mergeDirFiles, sortByName]
  rw [List.mem_insertionSort, List.mem_append, List.mem_filterMap]
  constructor
  · rintro (h | ⟨⟨e, u⟩, hmem, heq⟩)
    · exact Or.inl h
    · right
      by_cases hc : u = false ∧ relFlag (b.getD []) (b.getD []).length done e = true
      · rw [if_pos hc] at heq
        obtain ⟨hu, hr⟩ := hc
        subst hu
        cases heq
        exact ⟨hmem, hr⟩
      · rw [if_neg hc] at heq
        cases heq
  · rintro (h | ⟨hmem, hrel⟩)
    · exact Or.inl h
    · exact Or.inr ⟨(x, false), hmem, by simp [hrel]⟩

theorem relFlag_true_iff (gb : List Ent) (done : Bool) (de : Ent)
    (hs : List.Sorted entLe gb) :
    (relFlag gb gb.length done de = true ↔
      (done = true ∨ ∃ e ∈ gb, de.name.data ≤ e.name.data)) := by
  rw [relFlag_iff gb done hs de, Bool.or_eq_true_iff]
  apply or_congr Iff.rfl
  rw [decide_eq_true_eq]
  constructor
  · rintro ⟨e, he, hle⟩
    exact ⟨e, he, hle⟩
  · rintro ⟨e, he, hle⟩
    exact ⟨e, he, hle⟩

theorem relFlag_false_iff (gb : List Ent) (done : Bool) (de : Ent)
    (hs : List.Sorted entLe gb) :
    (relFlag gb gb.length done de = false ↔
      (done = false ∧ ∀ e ∈ gb, e.name.data < de.name.data)) := by
  rw [← Bool.not_eq_true, relFlag_true_iff gb done de hs]
  push_neg
  constructor
  · rintro ⟨h1, h2⟩
    refine ⟨Bool.eq_false_iff.mpr h1, ?_⟩
    intro e he
    exact h2 e he
  · rintro ⟨h1, h2⟩
    refine ⟨Bool.eq_false_iff.mp h1, ?_⟩
    intro e he
    exact h2 e he

theorem futNames_cons (pg : ListPage) (rest : List ListPage) :
    futNames (pg :: rest) = pageNames pg ++ futNames rest := by
  simp [futNames]

theorem readNext_msOf (name : String) (pg : ListPage) (rest : List ListPage)
    (buf : Option (List Ent)) (dirs : Option (List (Ent × Bool)))
    (hne : ¬(name ≠ "." ∧ pg.commonPrefixes.length + pg.contents.length = 0)) :
    msOf (DirS.readNext ⟨name, pg :: rest, false, buf, dirs⟩).1 =
      msOf ⟨name, pg :: rest, false, buf, dirs⟩ := by
  rw [readNext_cons name pg rest buf dirs hne]
  obtain ⟨rel, hm1, hm2, hm3, hm4, hm5⟩ :=
    mergeDirFiles_spec (pgDone pg) (readBuf1 buf pg.contents)
      (addDirs (dirs.getD []) pg.commonPrefixes)
  simp only [msOf, Option.getD_some]
  rw [hm3, dkeys_addDirs]
  rw [unrel_addDirs] at hm2
  rw [readBuf1_getD] at hm1
  rw [show futureEnts (dkeys (dirs.getD [])) (pg :: rest) =
    pageFileEnts pg ++ newDirEnts (dkeys (dirs.getD [])) pg.commonPrefixes ++
      futureEnts (dkeys (dirs.getD []) ++
        newDirEnts (dkeys (dirs.getD [])) pg.commonPrefixes) rest from rfl]
  rw [← Multiset.coe_eq_coe] at hm1 hm2
  simp only [← Multiset.coe_add, List.append_assoc] at hm1 hm2 ⊢
  rw [hm1]
  trans ((buf.getD [] : Multiset Ent) +
    (List.map fileEntOf pg.contents : Multiset Ent) +
    ((rel : Multiset Ent) +
      (unrel (mergeDirFiles (pgDone pg) (readBuf1 buf pg.contents)
        (addDirs (dirs.getD []) pg.commonPrefixes)).2 : Multiset Ent)) +
    (futureEnts (dkeys (dirs.getD []) ++
      newDirEnts (dkeys (dirs.getD [])) pg.commonPrefixes) rest : Multiset Ent))
  · abel
  rw [hm2]
  simp only [pageFileEnts]
  abel

theorem mem_futNames (ps : List ListPage) (x : List Char) :
    x ∈ futNames ps ↔ ∃ pg ∈ ps, x ∈ pageNames pg := by
  simp [futNames, List.mem_flatten]

/-- Invariant for the chunked-read equivalence, tying a state to a lower
bound `lb` on everything it may still emit: buffer sorted; buffer, pending
directories and future pages all at or above `lb`; buffer at or below the
pending directories and the future; pending directories at or below the
future; pages name-monotone with sorted contents and well-formed flags; a
finished state holds nothing. -/
structure DInv (lb : List Char) (d : DirS) : Prop where
  sortedBuf : List.Sorted entLe (d.buf.getD [])
  lbBuf : ∀ e ∈ d.buf.getD [], lb ≤ e.name.data
  lbUnrel : ∀ e ∈ unrel (d.dirs.getD []), lb ≤ e.name.data
  lbFut : ∀ x ∈ futNames d.pages, lb ≤ x
  bufUnrel : ∀ b ∈ d.buf.getD [], ∀ e ∈ unrel (d.dirs.getD []),
    b.name.data ≤ e.name.data
  bufFut : ∀ b ∈ d.buf.getD [], ∀ x ∈ futNames d.pages, b.name.data ≤ x
  unrelFut : ∀ e ∈ unrel (d.dirs.getD []), ∀ x ∈ futNames d.pages,
    e.name.data ≤ x
  mono : d.pages.Pairwise (fun p q => ∀ a ∈ pageNames p, ∀ b ∈ pageNames q, a ≤ b)
  inpage : ∀ pg ∈ d.pages,
    List.Sorted (· ≤ ·) (pg.contents.map (fun o => (fileEntOf o).name.data))
  flags : d.done = false → flagsOk d.pages = true
  doneEmpty : d.done = true → d.pages = [] ∧ unrel (d.dirs.getD []) = []
  nonempty : ∀ pg ∈ d.pages, d.name = "." ∨ pg.commonPrefixes ≠ [] ∨ pg.contents ≠ []

theorem readNext_inv (lb : List Char) (name : String) (pg : ListPage)
    (rest : List ListPage) (buf : Option (List Ent))
    (dirs : Option (List (Ent × Bool)))
    (hinv : DInv lb ⟨name, pg :: rest, false, buf, dirs⟩) :
    DInv lb ⟨name, rest, pgDone pg,
      some (mergeDirFiles (pgDone pg) (readBuf1 buf pg.contents)
        (addDirs (dirs.getD []) pg.commonPrefixes)).1,
      some (mergeDirFiles (pgDone pg) (readBuf1 buf pg.contents)
        (addDirs (dirs.getD []) pg.commonPrefixes)).2⟩ ∧
    msOf ⟨name, rest, pgDone pg,
      some (mergeDirFiles (pgDone pg) (readBuf1 buf pg.contents)
        (addDirs (dirs.getD []) pg.commonPrefixes)).1,
      some (mergeDirFiles (pgDone pg) (readBuf1 buf pg.contents)
        (addDirs (dirs.getD []) pg.commonPrefixes)).2⟩ =
      msOf ⟨name, pg :: rest, false, buf, dirs⟩ := by
  obtain ⟨hsort, hlbB, hlbU, hlbF, hBU, hBF, hUF, hmono, hinpage, hflags,
    hdoneE, hnonempty⟩ := hinv
  simp only [Option.getD_some] at *
  have hne : ¬(name ≠ "." ∧ pg.commonPrefixes.length + pg.contents.length = 0) := by
    rcases hnonempty pg (by simp) with h | h | h
    · intro hc
      exact hc.1 h
    · intro hc
      exact h (List.length_eq_zero.mp (by omega))
    · intro hc
      exact h (List.length_eq_zero.mp (by omega))
  have hmonoc := List.pairwise_cons.mp hmono
  have hfut6 : ∀ a ∈ pageNames pg, ∀ x ∈ futNames rest, a ≤ x := by
    intro a ha x hx
    obtain ⟨q, hq, hxq⟩ := (mem_futNames rest x).mp hx
    exact hmonoc.1 q hq a ha x hxq
  have hgb : (readBuf1 buf pg.contents).getD [] =
      buf.getD [] ++ pg.contents.map fileEntOf := readBuf1_getD buf pg.contents
  have hfilesorted : List.Sorted entLe (pg.contents.map fileEntOf) := by
    have h := hinpage pg (by simp)
    rw [List.Sorted, List.pairwise_map] at h ⊢
    exact h.imp (fun hab => hab)
  have hfileNames : ∀ o ∈ pg.contents, (fileEntOf o).name.data ∈ pageNames pg := by
    intro o ho
    rw [pageNames]
    exact List.mem_append_left _ (List.mem_map_of_mem _ ho)
  have hdirNames : ∀ p ∈ pg.commonPrefixes, (dirEntOf p).name.data ∈ pageNames pg := by
    intro p hp
    rw [pageNames]
    exact List.mem_append_right _ (List.mem_map_of_mem _ hp)
  have hpgFut : ∀ a ∈ pageNames pg, a ∈ futNames (pg :: rest) := by
    intro a ha
    rw [futNames_cons]
    exact List.mem_append_left _ ha
  have hgbsorted : List.Sorted entLe ((readBuf1 buf pg.contents).getD []) := by
    rw [hgb, List.Sorted, List.pairwise_append]
    refine ⟨hsort, hfilesorted, ?_⟩
    intro b hb f hf
    rw [List.mem_map] at hf
    obtain ⟨o, ho, rfl⟩ := hf
    exact hBF b hb _ (hpgFut _ (hfileNames o ho))
  have hunrel1 : unrel (addDirs (dirs.getD []) pg.commonPrefixes) =
      unrel (dirs.getD []) ++ newDirEnts (dkeys (dirs.getD [])) pg.commonPrefixes :=
    unrel_addDirs _ _
  have hnewdir : ∀ de ∈ newDirEnts (dkeys (dirs.getD [])) pg.commonPrefixes,
      de.name.data ∈ pageNames pg := by
    intro de hde
    have := ((newDirEnts_mem pg.commonPrefixes _ de).mp hde).2
    rw [List.mem_map] at this
    obtain ⟨p, hp, rfl⟩ := this
    exact hdirNames p hp
  -- every pending entry of the folded map is an old pending entry or a
  -- new directory of this page
  have hpend : ∀ de, (de, false) ∈ addDirs (dirs.getD []) pg.commonPrefixes →
      de ∈ unrel (dirs.getD []) ∨
        de ∈ newDirEnts (dkeys (dirs.getD [])) pg.commonPrefixes := by
    intro de hde
    have : de ∈ unrel (addDirs (dirs.getD []) pg.commonPrefixes) :=
      (unrel_mem _ de).mpr hde
    rw [hunrel1] at this
    exact List.mem_append.mp this
  have hlbPend : ∀ de, (de, false) ∈ addDirs (dirs.getD []) pg.commonPrefixes →
      lb ≤ de.name.data := by
    intro de hde
    rcases hpend de hde with h | h
    · exact hlbU de h
    · exact hlbF _ (hpgFut _ (hnewdir de h))
  have hpendFut : ∀ de, (de, false) ∈ addDirs (dirs.getD []) pg.commonPrefixes →
      ∀ x ∈ futNames rest, de.name.data ≤ x := by
    intro de hde x hx
    rcases hpend de hde with h | h
    · exact hUF de h x (by rw [futNames_cons]; exact List.mem_append_right _ hx)
    · exact hfut6 _ (hnewdir de h) x hx
  have hgbLb : ∀ e ∈ (readBuf1 buf pg.contents).getD [], lb ≤ e.name.data := by
    intro e he
    rw [hgb, List.mem_append] at he
    rcases he with h | h
    · exact hlbB e h
    · rw [List.mem_map] at h
      obtain ⟨o, ho, rfl⟩ := h
      exact hlbF _ (hpgFut _ (hfileNames o ho))
  have hgbFut : ∀ e ∈ (readBuf1 buf pg.contents).getD [],
      ∀ x ∈ futNames rest, e.name.data ≤ x := by
    intro e he x hx
    rw [hgb, List.mem_append] at he
    rcases he with h | h
    · exact hBF e h x (by rw [futNames_cons]; exact List.mem_append_right _ hx)
    · rw [List.mem_map] at h
      obtain ⟨o, ho, rfl⟩ := h
      exact hfut6 _ (hfileNames o ho) x hx
  have hbufMem : ∀ x ∈ (mergeDirFiles (pgDone pg) (readBuf1 buf pg.contents)
      (addDirs (dirs.getD []) pg.commonPrefixes)).1,
      x ∈ (readBuf1 buf pg.contents).getD [] ∨
        ((x, false) ∈ addDirs (dirs.getD []) pg.commonPrefixes ∧
          relFlag ((readBuf1 buf pg.contents).getD [])
            ((readBuf1 buf pg.contents).getD []).length (pgDone pg) x = true) := by
    intro x hx
    exact (merge_buf_mem _ _ _ x).mp hx
  have hunrelMem : ∀ de ∈ unrel (mergeDirFiles (pgDone pg) (readBuf1 buf pg.contents)
      (addDirs (dirs.getD []) pg.commonPrefixes)).2,
      (de, false) ∈ addDirs (dirs.getD []) pg.commonPrefixes ∧
        pgDone pg = false ∧
        ∀ e ∈ (readBuf1 buf pg.contents).getD [], e.name.data < de.name.data := by
    intro de hde
    obtain ⟨hmem, hrel⟩ := (merge_unrel_mem _ _ _ de).mp hde
    obtain ⟨hd, hlt⟩ := (relFlag_false_iff _ _ de hgbsorted).mp hrel
    exact ⟨hmem, hd, hlt⟩
  have hbufLb : ∀ x ∈ (mergeDirFiles (pgDone pg) (readBuf1 buf pg.contents)
      (addDirs (dirs.getD []) pg.commonPrefixes)).1, lb ≤ x.name.data := by
    intro x hx
    rcases hbufMem x hx with h | ⟨h, _⟩
    · exact hgbLb x h
    · exact hlbPend x h
  have hbufFut : ∀ x ∈ (mergeDirFiles (pgDone pg) (readBuf1 buf pg.contents)
      (addDirs (dirs.getD []) pg.commonPrefixes)).1,
      ∀ y ∈ futNames rest, x.name.data ≤ y := by
    intro x hx y hy
    rcases hbufMem x hx with h | ⟨h, _⟩
    · exact hgbFut x h y hy
    · exact hpendFut x h y hy
  have hms : msOf ⟨name, rest, pgDone pg,
      some (mergeDirFiles (pgDone pg) (readBuf1 buf pg.contents)
        (addDirs (dirs.getD []) pg.commonPrefixes)).1,
      some (mergeDirFiles (pgDone pg) (readBuf1 buf pg.contents)
        (addDirs (dirs.getD []) pg.commonPrefixes)).2⟩ =
      msOf ⟨name, pg :: rest, false, buf, dirs⟩ := by
    have h := readNext_msOf name pg rest buf dirs hne
    rw [readNext_cons name pg rest buf dirs hne] at h
    exact h
  refine ⟨?_, hms⟩
  constructor
  · simp only [Option.getD_some]
    simp only [mergeDirFiles]
    exact List.sorted_insertionSort entLe _
  · simp only [Option.getD_some]
    exact hbufLb
  · simp only [Option.getD_some]
    intro e he
    exact hlbPend e ((hunrelMem e he).1)
  · simp only
    intro x hx
    exact hlbF x (by rw [futNames_cons]; exact List.mem_append_right _ hx)
  · simp only [Option.getD_some]
    intro b hb e he
    obtain ⟨hmem, hd, hlt⟩ := hunrelMem e he
    rcases hbufMem b hb with h | ⟨h, hrel⟩
    · exact le_of_lt (hlt b h)
    · obtain (hd2 | ⟨w, hw, hbw⟩) :=
        (relFlag_true_iff _ _ b hgbsorted).mp hrel
      · rw [hd] at hd2
        cases hd2
      · exact le_of_lt (lt_of_le_of_lt hbw (hlt w hw))
  · simp only [Option.getD_some]
    exact hbufFut
  · simp only [Option.getD_some]
    intro e he x hx
    exact hpendFut e ((hunrelMem e he).1) x hx
  · simp only
    exact (List.pairwise_cons.mp hmono).2
  · simp only
    intro q hq
    exact hinpage q (by simp [hq])
  · simp only
    intro hpd
    have hfl := hflags trivial
    rcases rest with _ | ⟨q, rest'⟩
    · rw [show flagsOk [pg] = pgDone pg from rfl] at hfl
      rw [hfl] at hpd
      cases hpd
    · rw [show flagsOk (pg :: q :: rest') =
        (!pgDone pg && flagsOk (q :: rest')) from rfl] at hfl
      exact (Bool.and_eq_true_iff.mp hfl).2
  · simp only [Option.getD_some]
    intro hpd
    have hfl := hflags trivial
    have hrest : rest = [] := by
      rcases rest with _ | ⟨q, rest'⟩
      · rfl
      · rw [show flagsOk (pg :: q :: rest') =
          (!pgDone pg && flagsOk (q :: rest')) from rfl, hpd] at hfl
        simp at hfl
    refine ⟨hrest, ?_⟩
    rw [List.eq_nil_iff_forall_not_mem]
    intro de hde
    obtain ⟨_, hd, _⟩ := hunrelMem de hde
    rw [hpd] at hd
    cases hd
  · simp only
    intro q hq
    exact hnonempty q (by simp [hq])

theorem readNext_inv' (lb : List Char) (d : DirS) (pg : ListPage)
    (rest : List ListPage) (hp : d.pages = pg :: rest) (hd : d.done = false)
    (hinv : DInv lb d) :
    ∃ d1, DirS.readNext d = (d1, if pgDone pg then some .eofR else none) ∧
      DInv lb d1 ∧ msOf d1 = msOf d ∧ d1.name = d.name ∧ d1.pages = rest ∧
      d1.done = pgDone pg := by
  rcases d with ⟨name, pages, done, buf, dirs⟩
  simp only at hp hd
  subst hp
  subst hd
  have hne : ¬(name ≠ "." ∧ pg.commonPrefixes.length + pg.contents.length = 0) := by
    rcases hinv.nonempty pg (by simp) with h | h | h
    · intro hc
      exact hc.1 h
    · intro hc
      exact h (List.length_eq_zero.mp (by omega))
    · intro hc
      exact h (List.length_eq_zero.mp (by omega))
  obtain ⟨hinv1, hms⟩ := readNext_inv lb name pg rest buf dirs hinv
  exact ⟨_, readNext_cons name pg rest buf dirs hne, hinv1, hms, rfl, rfl, rfl⟩

theorem fillBufF_inv (n : Nat) (lb : List Char) :
    ∀ (fuel : Nat) (d : DirS), d.pages.length < fuel → DInv lb d →
    ∃ d1, fillBufF n fuel d = (d1, none) ∧ DInv lb d1 ∧ msOf d1 = msOf d ∧
      d1.name = d.name ∧ (d1.done = true ∨ n ≤ (d1.buf.getD []).length) := by
  intro fuel
  induction fuel with
  | zero =>
    intro d hlen hinv
    omega
  | succ fuel ih =>
    intro d hlen hinv
    rw [fillBufF]
    by_cases hfill : (d.buf.getD []).length < n
    · rw [if_pos hfill]
      by_cases hdone : d.done = true
      · have hrn : DirS.readNext d = (d, some .eofR) := by
          rw [DirS.readNext, if_pos hdone]
        rw [hrn]
        exact ⟨d, rfl, hinv, rfl, rfl, Or.inl hdone⟩
      · have hdf : d.done = false := by simpa using hdone
        have hfl := hinv.flags hdf
        rcases hpages : d.pages with _ | ⟨pg, rest⟩
        · rw [hpages] at hfl
          simp [flagsOk] at hfl
        obtain ⟨d1, hrn, hinv1, hms1, hname1, hpages1, hdone1⟩ :=
          readNext_inv' lb d pg rest hpages hdf hinv
        rw [hrn]
        by_cases hpd : pgDone pg = true
        · rw [hpd]
          exact ⟨d1, rfl, hinv1, hms1, hname1, Or.inl (by rw [hdone1, hpd])⟩
        · have hpdf : pgDone pg = false := by simpa using hpd
          rw [hpdf]
          obtain ⟨d2, hfb, hinv2, hms2, hname2, hcond⟩ := ih d1
            (by
              rw [hpages1]
              rw [hpages] at hlen
              simp only [List.length_cons] at hlen
              omega) hinv1
          exact ⟨d2, hfb, hinv2, hms2.trans hms1, hname2.trans hname1, hcond⟩
    · rw [if_neg hfill]
      exact ⟨d, rfl, hinv, rfl, rfl, Or.inr (by omega)⟩

theorem sorted_le_getLast : ∀ (l : List Ent) (hne : l ≠ []),
    List.Sorted entLe l → ∀ x ∈ l, entLe x (l.getLast hne) := by
  intro l
  induction l with
  | nil =>
    intro hne
    cases hne rfl
  | cons a t ih =>
    intro hne hs x hx
    rcases t with _ | ⟨b, t'⟩
    · have : x = a := by simpa using hx
      subst this
      exact le_refl x.name.data
    · rw [List.getLast_cons (by simp)]
      rcases List.mem_cons.mp hx with rfl | hx'
      · have hbmem : (b :: t').getLast (by simp) ∈ b :: t' := List.getLast_mem _
        exact List.rel_of_sorted_cons hs _ hbmem
      · exact ih (by simp) hs.of_cons x hx'

theorem readDir_step (n : Int) (hn : 0 < n) (lb : List Char) (d : DirS)
    (hinv : DInv lb d) :
    ∃ desO e2 d2, DirS.readDir n d = (desO, e2, d2) ∧
      List.Sorted entLe (desO.getD []) ∧
      (∀ x ∈ desO.getD [], lb ≤ x.name.data) ∧
      (desO.getD []).length ≤ n.toNat ∧
      ((e2 = some RErr.eofR ∧ ((desO.getD [] : List Ent) : Multiset Ent) = msOf d) ∨
       (e2 = none ∧ (desO.getD []).length = n.toNat ∧
         ∃ lb', lb ≤ lb' ∧ (∀ x ∈ desO.getD [], x.name.data ≤ lb') ∧ DInv lb' d2 ∧
           ((desO.getD [] : List Ent) : Multiset Ent) + msOf d2 = msOf d)) := by
  have hn' : 0 < n.toNat := by omega
  obtain ⟨d1, hfb, hinv1, hms1, hname1, hcond⟩ :=
    fillBufF_inv n.toNat lb (d.pages.length + 1) d (by omega) hinv
  have hred : DirS.readDir n d =
      (match d1.buf with
       | none => (none, if d1.done then some RErr.eofR else none, d1)
       | some buf =>
         (some (buf.take (min n.toNat buf.length)),
          if d1.done && (buf.drop (min n.toNat buf.length)).isEmpty
          then some RErr.eofR else none,
          { d1 with buf := some (buf.drop (min n.toNat buf.length)) })) := by
    rw [DirS.readDir, if_neg (by omega), hfb]
  rcases hbuf : d1.buf with _ | B1
  · have hd1done : d1.done = true := by
      rcases hcond with h | h
      · exact h
      · rw [hbuf] at h
        simp at h
        omega
    have hfinal : DirS.readDir n d = (none, some RErr.eofR, d1) := by
      rw [hred, hbuf, hd1done]
      rfl
    refine ⟨none, some .eofR, d1, hfinal, by simp, by simp, by simp,
      Or.inl ⟨rfl, ?_⟩⟩
    rw [← hms1, msOf]
    obtain ⟨hpg, hun⟩ := hinv1.doneEmpty hd1done
    rw [hbuf, hpg, hun]
    rw [show futureEnts (dkeys (d1.dirs.getD [])) [] = [] from rfl]
    simp
  · have hfinal : DirS.readDir n d =
        (some (B1.take (min n.toNat B1.length)),
         if d1.done && (B1.drop (min n.toNat B1.length)).isEmpty
         then some RErr.eofR else none,
         { d1 with buf := some (B1.drop (min n.toNat B1.length)) }) := by
      rw [hred, hbuf]
    rw [hbuf] at hcond
    simp only [Option.getD_some] at hcond
    have hsortB1 : List.Sorted entLe B1 := by
      have h := hinv1.sortedBuf
      rw [hbuf] at h
      exact h
    have hlbB1 : ∀ x ∈ B1, lb ≤ x.name.data := by
      intro x hx
      have h := hinv1.lbBuf
      rw [hbuf] at h
      exact h x hx
    have htd : B1.take (min n.toNat B1.length) ++ B1.drop (min n.toNat B1.length) = B1 :=
      List.take_append_drop _ B1
    have hcross : ∀ a ∈ B1.take (min n.toNat B1.length),
        ∀ b ∈ B1.drop (min n.toNat B1.length), entLe a b := by
      have hs2 := hsortB1
      rw [← htd] at hs2
      exact (List.pairwise_append.mp hs2).2.2
    have hsorttake : List.Sorted entLe (B1.take (min n.toNat B1.length)) :=
      List.Pairwise.sublist (List.take_sublist _ B1) hsortB1
    have hsortdrop : List.Sorted entLe (B1.drop (min n.toNat B1.length)) :=
      List.Pairwise.sublist (List.drop_sublist _ B1) hsortB1
    have htakemem : ∀ x ∈ B1.take (min n.toNat B1.length), x ∈ B1 := fun x hx =>
      (List.take_sublist _ B1).subset hx
    have hdropmem : ∀ x ∈ B1.drop (min n.toNat B1.length), x ∈ B1 := fun x hx =>
      (List.drop_sublist _ B1).subset hx
    have hlbtake : ∀ x ∈ B1.take (min n.toNat B1.length), lb ≤ x.name.data :=
      fun x hx => hlbB1 x (htakemem x hx)
    have htakelen : (B1.take (min n.toNat B1.length)).length = min n.toNat B1.length := by
      rw [List.length_take]
      omega
    by_cases hend : (d1.done && (B1.drop (min n.toNat B1.length)).isEmpty) = true
    · obtain ⟨hd1done, hdropnil⟩ := Bool.and_eq_true_iff.mp hend
      have hdropnil' : B1.drop (min n.toNat B1.length) = [] := by
        simpa using hdropnil
      have htake_all : B1.take (min n.toNat B1.length) = B1 :=
        List.take_of_length_le (by
          have hld := congrArg List.length hdropnil'
          simp only [List.length_drop, List.length_nil] at hld
          omega)
      rw [hend] at hfinal
      refine ⟨some (B1.take (min n.toNat B1.length)), some .eofR,
        { d1 with buf := some (B1.drop (min n.toNat B1.length)) },
        by simpa using hfinal, hsorttake, hlbtake,
        by rw [Option.getD_some, htakelen]; omega,
        Or.inl ⟨rfl, ?_⟩⟩
      simp only [Option.getD_some]
      rw [htake_all, ← hms1, msOf]
      obtain ⟨hpg, hun⟩ := hinv1.doneEmpty hd1done
      rw [hbuf, hpg, hun]
      rw [show futureEnts (dkeys (d1.dirs.getD [])) [] = [] from rfl]
      simp
    · have hendf : (d1.done && (B1.drop (min n.toNat B1.length)).isEmpty) = false := by
        simpa using hend
      rw [hendf] at hfinal
      have hlen : n.toNat ≤ B1.length := by
        rcases hcond with hdn | h
        · by_contra hlt
          push_neg at hlt
          have : min n.toNat B1.length = B1.length := by omega
          rw [this, List.drop_length] at hendf
          rw [hdn] at hendf
          simp at hendf
        · exact h
      have hoffn : min n.toNat B1.length = n.toNat := by omega
      have hlentake : (B1.take (min n.toNat B1.length)).length = n.toNat := by
        rw [htakelen]
        omega
      have htne : B1.take (min n.toNat B1.length) ≠ [] := by
        intro hc
        rw [hc] at hlentake
        simp at hlentake
        omega
      set lastE := (B1.take (min n.toNat B1.length)).getLast htne with hlastE
      have hlastmem : lastE ∈ B1.take (min n.toNat B1.length) := List.getLast_mem _
      have hlastB1 : lastE ∈ B1 := htakemem _ hlastmem
      refine ⟨some (B1.take (min n.toNat B1.length)), none,
        { d1 with buf := some (B1.drop (min n.toNat B1.length)) },
        by simpa using hfinal, hsorttake, hlbtake,
        by rw [Option.getD_some, htakelen]; omega,
        Or.inr ⟨rfl, by simpa using hlentake, lastE.name.data,
          hlbB1 lastE hlastB1, ?_, ?_, ?_⟩⟩
      · simp only [Option.getD_some]
        intro x hx
        exact sorted_le_getLast _ htne hsorttake x hx
      · constructor
        · simp only [Option.getD_some]
          exact hsortdrop
        · simp only [Option.getD_some]
          intro e he
          exact hcross lastE hlastmem e he
        · simp only
          intro e he
          exact hinv1.bufUnrel lastE (by rw [hbuf]; exact hlastB1) e he
        · simp only
          intro x hx
          exact hinv1.bufFut lastE (by rw [hbuf]; exact hlastB1) x hx
        · simp only [Option.getD_some]
          intro b hb e he
          exact hinv1.bufUnrel b (by rw [hbuf]; exact hdropmem b hb) e he
        · simp only [Option.getD_some]
          intro b hb x hx
          exact hinv1.bufFut b (by rw [hbuf]; exact hdropmem b hb) x hx
        · simp only
          exact hinv1.unrelFut
        · simp only
          exact hinv1.mono
        · simp only
          exact hinv1.inpage
        · simp only
          exact hinv1.flags
        · simp only [Option.getD_some]
          intro hdn
          exact hinv1.doneEmpty hdn
        · simp only
          exact hinv1.nonempty
      · simp only [Option.getD_some]
        rw [← hms1]
        simp only [msOf, hbuf, Option.getD_some]
        conv_rhs => rw [← htd]
        simp only [← Multiset.coe_add]
        abel

theorem readDir_len_le (n : Int) (hn : 0 < n) (d : DirS) :
    ((DirS.readDir n d).1.getD []).length ≤ n.toNat := by
  rw [DirS.readDir, if_neg (by omega)]
  rcases hfb : fillBufF n.toNat (d.pages.length + 1) d with ⟨d1, e⟩
  rcases e with _ | e
  · rcases hbuf : d1.buf with _ | buf
    · simp [hbuf]
    · simp only [hbuf, Option.getD_some, List.length_take]
      omega
  · cases e <;> simp

/-- The empty character list is a bottom element of the byte-wise order. -/
theorem charList_nil_le (l : List Char) : ([] : List Char) ≤ l := by
  cases l with
  | nil => exact le_refl _
  | cons a t => exact le_of_lt (List.nil_lt_cons a t)

theorem msOf_initDir (name : String) (ps : List ListPage) :
    msOf (initDir name ps) = ((futureEnts [] ps : List Ent) : Multiset Ent) := by
  simp [msOf, initDir, unrel, dkeys]

theorem dinv_initDir (name : String) (ps : List ListPage)
    (hflags : flagsOk ps = true)
    (hroots : ∀ pg ∈ ps, name = "." ∨ pg.commonPrefixes ≠ [] ∨ pg.contents ≠ [])
    (hmono : ps.Pairwise (fun p q => ∀ a ∈ pageNames p, ∀ b ∈ pageNames q, a ≤ b))
    (hinpage : ∀ pg ∈ ps, List.Sorted (· ≤ ·)
      (pg.contents.map (fun o => (fileEntOf o).name.data))) :
    DInv [] (initDir name ps) := by
  refine ⟨?_, ?_, ?_, ?_, ?_, ?_, ?_, ?_, ?_, ?_, ?_, ?_⟩
  · simp [initDir]
  · simp [initDir]
  · simp [initDir, unrel]
  · intro x _
    exact charList_nil_le x
  · simp [initDir]
  · simp [initDir]
  · simp [initDir, unrel]
  · exact hmono
  · exact hinpage
  · intro _
    exact hflags
  · intro h
    simp [initDir] at h
  · exact hroots

theorem drainN_ok (n : Int) (hn : 0 < n) :
    ∀ (fuel : Nat) (lb : List Char) (d : DirS), (msOf d).card < fuel → DInv lb d →
    ∃ R, drainN n fuel d = (R, none) ∧ List.Sorted entLe R ∧
      (∀ e ∈ R, lb ≤ e.name.data) ∧ ((R : List Ent) : Multiset Ent) = msOf d := by
  intro fuel
  induction fuel with
  | zero =>
    intro lb d hcard hinv
    omega
  | succ fuel ih =>
    intro lb d hcard hinv
    obtain ⟨desO, e2, d2, heq, hsort, hlb, hlen, hcases⟩ := readDir_step n hn lb d hinv
    rcases hcases with ⟨he2, hms⟩ | ⟨he2, hlen2, lb', hlble, hub, hinv2, hsplit⟩
    · subst he2
      refine ⟨desO.getD [], ?_, hsort, hlb, hms⟩
      rw [drainN, heq]
    · subst he2
      have hn' : 0 < n.toNat := by omega
      have hcard2 : (msOf d2).card < fuel := by
        have hc := congrArg Multiset.card hsplit
        simp only [Multiset.card_add, Multiset.coe_card] at hc
        omega
      obtain ⟨R2, hdr, hsort2, hlb2, hms2⟩ := ih lb' d2 hcard2 hinv2
      refine ⟨desO.getD [] ++ R2, ?_, ?_, ?_, ?_⟩
      · rw [drainN, heq]
        dsimp only
        rw [hdr]
      · rw [List.Sorted, List.pairwise_append]
        exact ⟨hsort, hsort2, fun a ha b hb => le_trans (hub a ha) (hlb2 b hb)⟩
      · intro x hx
        rcases List.mem_append.mp hx with h | h
        · exact hlb x h
        · exact le_trans hlble (hlb2 x h)
      · rw [show ((desO.getD [] ++ R2 : List Ent) : Multiset Ent) =
            ((desO.getD [] : List Ent) : Multiset Ent) + (R2 : Multiset Ent) from rfl]
        rw [hms2]
        exact hsplit

/-- C2 (amended): over every well-formed page queue that delivers the
listing in entry-name order (pages pairwise name-monotone and each page's
contents name-sorted — true of S3's raw key order except when a common
prefix `P/` arrives after an object key having `P` as a proper prefix
followed by a byte below `'/'`), repeatedly calling `ReadDir(n)` with
`n > 0` until `io.EOF` yields, with all batches concatenated in call
order, exactly the entry sequence of a single unrestricted drain
(`n ≤ 0`) of a fresh enumerator, and every `ReadDir(n)` call returns at
most `n` entries.  (Entry names pairwise distinct, as S3 guarantees under
a single listed prefix.) -/
theorem c2_chunked_eq_drain (n m : Int) (hn : 0 < n) (hm : m ≤ 0)
    (name : String) (ps : List ListPage)
    (hflags : flagsOk ps = true)
    (hroots : ∀ pg ∈ ps, name = "." ∨ pg.commonPrefixes ≠ [] ∨ pg.contents ≠ [])
    (hmono : ps.Pairwise (fun p q => ∀ a ∈ pageNames p, ∀ b ∈ pageNames q, a ≤ b))
    (hinpage : ∀ pg ∈ ps, List.Sorted (· ≤ ·)
      (pg.contents.map (fun o => (fileEntOf o).name.data)))
    (hnames : ((futureEnts [] ps).map Ent.name).Nodup) :
    ∃ B, (DirS.readDir m (initDir name ps)).1 = some B ∧
      (DirS.readDir m (initDir name ps)).2.1 = none ∧
      drainN n ((futureEnts [] ps).length + 1) (initDir name ps) = (B, none) ∧
      ∀ d : DirS, ((DirS.readDir n d).1.getD []).length ≤ n.toNat := by
  obtain ⟨B, h1, h2, hsB, hpB⟩ := readDir_drain m hm name ps hflags hroots
  obtain ⟨R, hdr, hsR, _, hmsR⟩ := drainN_ok n hn ((futureEnts [] ps).length + 1) []
    (initDir name ps)
    (by rw [msOf_initDir, Multiset.coe_card]; omega)
    (dinv_initDir name ps hflags hroots hmono hinpage)
  have hRperm : R.Perm (futureEnts [] ps) := by
    rw [← Multiset.coe_eq_coe]
    rw [hmsR, msOf_initDir]
  have hRB : R.Perm B := hRperm.trans hpB.symm
  have hinj : ∀ x ∈ R, ∀ y ∈ R, x.name = y.name → x = y := by
    have hnodup : (R.map Ent.name).Nodup := ((hRperm.map Ent.name).nodup_iff).mpr hnames
    intro x hx y hy hxy
    exact List.inj_on_of_nodup_map hnodup hx hy hxy
  have hRBeq : R = B := sorted_perm_eq R B hRB hsR hsB hinj
  exact ⟨B, h1, h2, hRBeq ▸ hdr, fun d => readDir_len_le n hn d⟩

/-- Page queue for the C2 witness: two pages delivering the objects
"a.txt" then "b.txt", in entry-name order. -/
def c2wpsW : List ListPage :=
  [⟨[⟨"a.txt", 7, 1⟩], [], some true⟩, ⟨[⟨"b.txt", 3, 2⟩], [], some false⟩]

theorem c2_chunked_eq_drain_witness :
    ((0:Int) < 1 ∧ (-1:Int) ≤ 0 ∧ flagsOk c2wpsW = true ∧
      (∀ pg ∈ c2wpsW, "." = "." ∨ pg.commonPrefixes ≠ [] ∨ pg.contents ≠ []) ∧
      c2wpsW.Pairwise (fun p q => ∀ a ∈ pageNames p, ∀ b ∈ pageNames q, a ≤ b) ∧
      (∀ pg ∈ c2wpsW, List.Sorted (· ≤ ·)
        (pg.contents.map (fun o => (fileEntOf o).name.data))) ∧
      ((futureEnts [] c2wpsW).map Ent.name).Nodup) ∧
    (∃ B, (DirS.readDir (-1) (initDir "." c2wpsW)).1 = some B ∧
      (DirS.readDir (-1) (initDir "." c2wpsW)).2.1 = none ∧
      drainN 1 ((futureEnts [] c2wpsW).length + 1) (initDir "." c2wpsW) = (B, none) ∧
      ∀ d : DirS, ((DirS.readDir 1 d).1.getD []).length ≤ (1:Int).toNat) :=
  ⟨⟨by decide, by decide, by decide, by decide, by decide, by decide, by decide⟩,
    c2_chunked_eq_drain 1 (-1) (by decide) (by decide) "." c2wpsW (by decide)
      (by decide) (by decide) (by decide) (by decide)⟩
